import Mathlib

/-!
# Configuration resolution of the n2n edge daemon (`edge.c`)

A shallow embedding of the configuration code of `edge.c`:
`scan_address`, `setOption`, `loadFromCLI`, `trim`, `loadFromFile` and the
loader selection at the head of `main`.

Conventions of the embedding.

* A C string is the list of its characters, the terminating NUL excluded
  (`CStr`); a `char` array is the list of all its bytes (`Buf`); a pointer
  that may be `NULL` is an `Option`.
* A call either returns, terminates the process (`exit`), or performs an
  access through a `NULL` pointer or past a buffer (`fault`): `Outcome`.
* The preprocessor switches and the constants that `n2n.h` declares are the
  fields of `Build`.
* The C library is modelled by its documented behaviour (`memset`,
  `strncpy`, `strtol`, `atoi`, `fgets`); `fopen` and `getopt_long` are the
  fields of `Env`.
-/

namespace Edge

/-! ## Strings, buffers and outcomes -/

/-- The characters of a NUL-terminated C string, terminator excluded. -/
abbrev CStr := List Char

/-- A `char` array, every byte of it. -/
abbrev Buf := List Char

/-- The NUL character. -/
def NUL : Char := Char.ofNat 0

/-- The double quote character. -/
def DQUOTE : Char := Char.ofNat 34

/-- The single quote character. -/
def SQUOTE : Char := Char.ofNat 39

/-- The C string a buffer holds: its bytes before the first NUL. -/
def cstr (b : Buf) : CStr := b.takeWhile (fun c => c != NUL)

/-- How a call ends: it returns a value, the process exits with a status, or
the call dereferences `NULL` or writes past a buffer. -/
inductive Outcome (α : Type) where
  | ok (a : α)
  | exit (status : Int)
  | fault
  deriving DecidableEq, Repr

/-- Sequencing of calls: the continuation runs only when the call returns. -/
def Outcome.bind {α β : Type} (o : Outcome α) (f : α → Outcome β) : Outcome β :=
  match o with
  | .ok a => f a
  | .exit s => .exit s
  | .fault => .fault

/-! ## C library -/

/-- The call `memset(buf, 0, n)`: the first `n` bytes become NUL. -/
def memset0 (buf : Buf) (n : Nat) : Buf :=
  List.replicate n NUL ++ buf.drop n

/-- The call `strncpy(dst, src, n)`: the first `n` bytes of `dst` become the first `n`
characters of `src`, padded with NULs when `src` is shorter. -/
def strncpy (dst : Buf) (src : CStr) (n : Nat) : Buf :=
  src.take n ++ List.replicate (n - src.length) NUL ++ dst.drop n

/-- The assignment `buf[i] = 0`. -/
def setNul (buf : Buf) (i : Nat) : Buf := buf.set i NUL

/-- The test `isspace` in the C locale. -/
def isspace (c : Char) : Bool :=
  c == ' ' || c == '\t' || c == '\n' || c == Char.ofNat 11 || c == Char.ofNat 12 || c == '\r'

/-- Value of a digit character in a base up to 16, if it is one. -/
def digitVal (base : Nat) (c : Char) : Option Nat :=
  let n := c.toNat
  let v : Option Nat :=
    if 48 ≤ n ∧ n ≤ 57 then some (n - 48)
    else if 97 ≤ n ∧ n ≤ 102 then some (n - 87)
    else if 65 ≤ n ∧ n ≤ 70 then some (n - 55)
    else none
  match v with
  | some d => if d < base then some d else none
  | none => none

/-- The number the leading digits of `s` spell in `base`, starting from `acc`. -/
def digitsVal (base : Nat) : List Char → Nat → Nat
  | [], acc => acc
  | c :: rest, acc =>
    match digitVal base c with
    | some d => digitsVal base rest (acc * base + d)
    | none => acc

/-- The constant `LONG_MAX` of a 64-bit `long`. -/
def LONG_MAX : Int := 9223372036854775807

/-- The constant `LONG_MIN` of a 64-bit `long`. -/
def LONG_MIN : Int := -9223372036854775808

/-- The call `strtol(s, NULL, base)` for base 10 or 16: leading white space, an optional
sign, for base 16 an optional `0x`, then digits; no digits give 0; the result
saturates at the range of `long`. -/
def strtol (s : CStr) (base : Nat) : Int :=
  let s1 := s.dropWhile isspace
  let neg : Bool := s1.head? == some '-'
  let s2 := if s1.head? == some '-' || s1.head? == some '+' then s1.drop 1 else s1
  let s3 :=
    match s2 with
    | z :: x :: h :: rest =>
      if base == 16 && z == '0' && (x == 'x' || x == 'X') && (digitVal 16 h).isSome
      then h :: rest else s2
    | _ => s2
  let v : Int := (digitsVal base s3 0 : Nat)
  let r : Int := if neg then -v else v
  if r > LONG_MAX then LONG_MAX else if r < LONG_MIN then LONG_MIN else r

/-- Conversion of a `long` to a 32-bit `int`. -/
def toInt32 (v : Int) : Int := (v + 2147483648) % 4294967296 - 2147483648

/-- The call `atoi(s)`, that is `(int) strtol(s, NULL, 10)`; a `NULL` argument is
dereferenced. -/
def atoi (s : Option CStr) : Outcome Int :=
  match s with
  | none => .fault
  | some t => .ok (toInt32 (strtol t 10))

/-- One `fgets(buffer, size, fd)` after another until end of file: each piece
ends after a newline, or holds `size - 1` characters, or is what is left. The
second argument is the piece being read, last character first. -/
def fgetsAll (size : Nat) : List Char → List Char → List (List Char)
  | [], cur => if cur.isEmpty then [] else [cur.reverse]
  | c :: rest, cur =>
    if c == '\n' || cur.length + 1 == size - 1
    then (c :: cur).reverse :: fgetsAll size rest []
    else fgetsAll size rest (c :: cur)

/-! ## Constants and data model -/

/-- Dotted decimal 12 numbers + 3 dots. -/
def N2N_NETMASK_STR_SIZE : Nat := 16

/-- Size of `AA:BB:CC:DD:EE:FF` + NUL. -/
def N2N_MACNAMSIZ : Nat := 18

/-- Size of `static` | `dhcp`. -/
def N2N_IF_MODE_SIZE : Nat := 16

/-- What the compilation fixes: the preprocessor switches `edge.c` tests, the
array sizes `n2n.h` defines, the capacity of the supernode list, and the
conversion C applies when a `long` is stored in the `tos` field that `n2n.h`
declares. -/
structure Build where
  /-- Switch `WIN32`. -/
  WIN32 : Bool
  /-- Switch `__APPLE__`. -/
  APPLE : Bool
  /-- Switch `__linux__`. -/
  LINUX : Bool
  /-- Switch `N2N_HAVE_AES`. -/
  N2N_HAVE_AES : Bool
  /-- Switch `N2N_CAN_NAME_IFACE`. -/
  N2N_CAN_NAME_IFACE : Bool
  /-- Size of `tuntap_dev_name`. -/
  N2N_IFNAMSIZ : Nat
  /-- Size of `community_name`. -/
  N2N_COMMUNITY_SIZE : Nat
  /-- Capacity of the supernode list. -/
  N2N_EDGE_NUM_SUPERNODES : Nat
  /-- Conversion to the type of the `tos` field. -/
  tos_of_long : Int → Int
  /-- An array has at least one element. -/
  ifnamsiz_pos : 0 < N2N_IFNAMSIZ
  /-- An array has at least one element. -/
  community_size_pos : 0 < N2N_COMMUNITY_SIZE

/-- The struct `n2n_priv_config_t` (ProcessConfig). -/
structure n2n_priv_config_t where
  tuntap_dev_name : Buf
  ip_mode : Buf
  ip_addr : Buf
  netmask : Buf
  device_mac : Buf
  mtu : Int
  got_s : Nat
  daemon : Nat
  userid : Int
  groupid : Int
  deriving DecidableEq, Repr

/-- The transform identifiers `edge.c` names. -/
inductive n2n_transform_t where
  | N2N_TRANSFORM_ID_NULL
  | N2N_TRANSFORM_ID_TWOFISH
  | N2N_TRANSFORM_ID_AESCBC
  deriving DecidableEq, Repr

/-- Modelled from the spec: the struct `n2n_edge_conf_t` (EngineConfig), which
`n2n.h` declares, with the fields `edge.c` reads or writes; the supernode
array and its count are the ordered list `supernodes`, and the integer
settings hold the `int` that `atoi` returns. -/
structure n2n_edge_conf_t where
  community_name : Buf
  encrypt_key : Option CStr
  transop_id : n2n_transform_t
  supernodes : List CStr
  dyn_ip_mode : Nat
  allow_routing : Nat
  drop_multicast : Nat
  allow_p2p : Nat
  disable_pmtu_discovery : Nat
  tos : Int
  register_interval : Int
  register_ttl : Int
  local_port : Int
  mgmt_port : Int
  deriving DecidableEq, Repr

/-- Everything `setOption` reads or writes: the two aggregates, the global
`optarg` of `getopt`, and the trace level. -/
structure State where
  ec : n2n_priv_config_t
  conf : n2n_edge_conf_t
  optarg : Option CStr
  traceLevel : Int
  deriving DecidableEq, Repr

/-! ## `scan_address` -/

/-- The function `scan_address`. The result is the return value, the address
buffer and the mode buffer. With a size of 0 the expression `size - 1` is
`SIZE_MAX` and the copy runs past the buffer. -/
def scan_address (ip_addr : Option Buf) (addr_size : Nat)
    (ip_mode : Option Buf) (mode_size : Nat) (s : Option CStr) :
    Outcome (Int × Option Buf × Option Buf) :=
  match s, ip_addr with
  | none, _ => .ok (-1, ip_addr, ip_mode)
  | _, none => .ok (-1, ip_addr, ip_mode)
  | some s, some a =>
    let a1 := memset0 a addr_size
    -- p = strpbrk(s, ":")
    let before := s.takeWhile (fun c => c != ':')
    let p := s.dropWhile (fun c => c != ':')
    match p with
    | _ :: after =>
      -- colon is present
      match ip_mode with
      | some m =>
        let m1 := memset0 m mode_size
        if mode_size = 0 then .fault
        else
          let e := min before.length (mode_size - 1)
          let m2 := strncpy m1 s e
          if addr_size = 0 then .fault
          else .ok (0, some (strncpy a1 after (addr_size - 1)), some m2)
      | none => .ok (-1, some a1, none)
    | [] =>
      -- colon is not present
      if addr_size = 0 then .fault
      else .ok (-1, some (setNul (strncpy a1 s (addr_size - 1)) (addr_size - 1)), ip_mode)

/-! ## `setOption` -/

/-- Modelled from the spec: `edge_conf_add_supernode` of the engine library,
which adds a supernode endpoint to EngineConfig and returns failure when the
list is full; the list is ordered and an entry is added at its end. -/
def edge_conf_add_supernode (b : Build) (conf : n2n_edge_conf_t) (ip_and_port : CStr) :
    Int × n2n_edge_conf_t :=
  if conf.supernodes.length < b.N2N_EDGE_NUM_SUPERNODES
  then (0, { conf with supernodes := conf.supernodes ++ [ip_and_port] })
  else (-1, conf)

/-- The function `help`: it prints the usage text and calls `exit(0)`. -/
def help {α : Type} : Outcome α := .exit 0

/-- The statements `strncpy(field, optargument, size); field[size - 1] = 0`,
with a `NULL` source dereferenced. -/
def copyField (field : Buf) (optargument : Option CStr) (size : Nat) : Outcome Buf :=
  match optargument with
  | none => .fault
  | some v => .ok (setNul (strncpy field v size) (size - 1))

/-- The function `setOption`. The result is the return value and the state
after the call. A `case` under a preprocessor switch that is off is no label
of the `switch`, so its code reaches `default`. -/
def setOption (b : Build) (optkey : Char) (optargument : Option CStr) (st : State) :
    Outcome (Int × State) :=
  let ec := st.ec
  let conf := st.conf
  let unknown : Outcome (Int × State) := .ok (-1, st)
  let case_i : Outcome (Int × State) :=
    (atoi optargument).bind fun v =>
      .ok (0, { st with conf := { conf with register_interval := v } })
  match optkey with
  | 'a' =>
    (scan_address (some ec.ip_addr) N2N_NETMASK_STR_SIZE
        (some ec.ip_mode) N2N_IF_MODE_SIZE optargument).bind fun r =>
      .ok (0, { st with ec := { ec with ip_addr := r.2.1.getD ec.ip_addr,
                                        ip_mode := r.2.2.getD ec.ip_mode } })
  | 'c' =>
    (copyField (memset0 conf.community_name b.N2N_COMMUNITY_SIZE) optargument
        b.N2N_COMMUNITY_SIZE).bind fun name =>
      .ok (0, { st with conf := { conf with community_name := name } })
  | 'E' => .ok (0, { st with conf := { conf with drop_multicast := 0 } })
  | 'u' =>
    if b.WIN32 then unknown
    else (atoi optargument).bind fun v =>
      .ok (0, { st with ec := { ec with userid := v % 4294967296 } })
  | 'g' =>
    if b.WIN32 then unknown
    else (atoi optargument).bind fun v =>
      .ok (0, { st with ec := { ec with groupid := v % 4294967296 } })
  | 'f' =>
    if b.WIN32 then unknown
    else .ok (0, { st with ec := { ec with daemon := 0 } })
  | 'm' =>
    (copyField ec.device_mac optargument N2N_MACNAMSIZ).bind fun mac =>
      .ok (0, { st with ec := { ec with device_mac := mac } })
  | 'M' =>
    (atoi optargument).bind fun v => .ok (0, { st with ec := { ec with mtu := v } })
  | 'D' =>
    if b.APPLE then unknown
    else .ok (0, { st with conf := { conf with disable_pmtu_discovery := 0 } })
  | 'k' =>
    let transop :=
      if conf.transop_id = .N2N_TRANSFORM_ID_NULL then .N2N_TRANSFORM_ID_TWOFISH
      else conf.transop_id
    match optargument with
    | none => .fault
    | some key =>
      .ok (0, { st with conf := { conf with transop_id := transop, encrypt_key := some key } })
  | 'r' => .ok (0, { st with conf := { conf with allow_routing := 1 } })
  | 'A' =>
    if b.N2N_HAVE_AES
    then .ok (0, { st with conf := { conf with transop_id := .N2N_TRANSFORM_ID_AESCBC } })
    else unknown
  | 'l' =>
    match optargument with
    | some sn =>
      let r := edge_conf_add_supernode b conf sn
      if r.1 ≠ 0 then .exit 1 else .ok (0, { st with conf := r.2 })
    | none => case_i
  | 'i' => case_i
  | 'L' =>
    (atoi st.optarg).bind fun v =>
      .ok (0, { st with conf := { conf with register_ttl := v } })
  | 'd' =>
    if b.N2N_CAN_NAME_IFACE
    then (copyField ec.tuntap_dev_name optargument b.N2N_IFNAMSIZ).bind fun name =>
      .ok (0, { st with ec := { ec with tuntap_dev_name := name } })
    else unknown
  | 'p' =>
    (atoi optargument).bind fun v => .ok (0, { st with conf := { conf with local_port := v } })
  | 't' =>
    (atoi optargument).bind fun v => .ok (0, { st with conf := { conf with mgmt_port := v } })
  | 'T' =>
    if b.LINUX
    then
      match optargument with
      | none => .fault
      | some ('0' :: 'x' :: hex) =>
        .ok (0, { st with conf := { conf with tos := b.tos_of_long (strtol hex 16) } })
      | some v =>
        .ok (0, { st with conf := { conf with tos := b.tos_of_long (toInt32 (strtol v 10)) } })
    else unknown
  | 's' =>
    (copyField ec.netmask optargument N2N_NETMASK_STR_SIZE).bind fun mask =>
      .ok (0, { st with ec := { ec with netmask := mask, got_s := 1 } })
  | 'S' => .ok (0, { st with conf := { conf with allow_p2p := 0 } })
  | 'h' => help
  | 'v' => .ok (0, { st with traceLevel := st.traceLevel + 1 })
  | _ => unknown

/-! ## `loadFromCLI` -/

/-- The table `long_options`: name, whether an argument is required, code. -/
def long_options : List (CStr × Bool × Char) :=
  [ ("community".toList, true, 'c'),
    ("supernode-list".toList, true, 'l'),
    ("tun-device".toList, true, 'd'),
    ("euid".toList, true, 'u'),
    ("egid".toList, true, 'g'),
    ("help".toList, false, 'h'),
    ("verbose".toList, false, 'v') ]

/-- One call of `getopt_long`: the value it returns and the value it leaves
in the global `optarg`. -/
structure GetoptRet where
  val : Int
  optarg : Option CStr
  deriving DecidableEq, Repr

/-- The function `loadFromCLI`, over the results of the successive calls of
`getopt_long` on the argument vector; once they are used up `getopt_long`
returns -1. The result is stored in a `u_char`: the loop ends at `?` and
at 255. -/
def loadFromCLI (b : Build) : List GetoptRet → State → Outcome (Int × State)
  | [], st => .ok (0, st)
  | r :: rest, st =>
    let c : Nat := (r.val % 256).toNat
    let st1 : State := { st with optarg := r.optarg }
    if c = 63 then .ok (0, st1)
    else if c = 255 then .ok (0, st1)
    else (setOption b (Char.ofNat c) st1.optarg st1).bind fun r1 => loadFromCLI b rest r1.2

/-! ## `trim` and `loadFromFile` -/

/-- The characters `trim` removes: white space and both quotes. -/
def trimCh (c : Char) : Bool := isspace c || c == DQUOTE || c == SQUOTE

/-- The function `trim`: the pointer moves past the leading characters to
remove; if something is left, the end moves back over the trailing ones while
it is beyond the first character. -/
def trim (s : CStr) : CStr :=
  match s.dropWhile trimCh with
  | [] => []
  | c :: rest => c :: (rest.reverse.dropWhile trimCh).reverse

/-- The test of the loop over `long_options` in `loadFromFile`: `key` starts
with the name, and the line ends there or goes on with NUL, space or `=`. -/
def longMatch (key : CStr) (line_len : Nat) (name : CStr) : Bool :=
  key.take name.length == name.take name.length
    && (decide (line_len ≤ name.length)
        || key.getD name.length NUL == NUL
        || key.getD name.length NUL == ' '
        || key.getD name.length NUL == '=')

/-- The body of the `while` loop of `loadFromFile` for one piece that `fgets`
delivered; the value `setOption` returns is dropped. -/
def confLine (b : Build) (buffer : List Char) (st : State) : Outcome State :=
  let line := trim (cstr buffer)
  let line_len := line.length
  if line_len < 2 || line.head? == some '#' then .ok st
  else if line.take 2 == ['-', '-'] then
    -- long opt
    let key := line.drop 2
    let line_len := line_len - 2
    match long_options.find? (fun opt => longMatch key line_len opt.1) with
    | some opt =>
      let opt_name_len := opt.1.length
      let value : Option CStr :=
        if line_len > opt_name_len + 1 then some (trim (key.drop (opt_name_len + 1))) else none
      (setOption b opt.2.2 value st).bind fun r => .ok r.2
    | none => .ok st
  else if line.head? == some '-' then
    -- short opt
    let key := line.drop 1
    let line_len := line_len - 1
    let value : Option CStr := if line_len > 2 then some (trim (key.drop 2)) else none
    (setOption b (key.headD NUL) value st).bind fun r => .ok r.2
  else .ok st

/-- The `while` loop of `loadFromFile` over the pieces `fgets` delivers. -/
def loadLines (b : Build) : List (List Char) → State → Outcome State
  | [], st => .ok st
  | buffer :: rest, st => (confLine b buffer st).bind fun st1 => loadLines b rest st1

/-- What the process finds around it: the content of the file at a path, if
it can be opened, and the results of the successive `getopt_long` calls on an
argument vector. -/
structure Env where
  fopen : CStr → Option (List Char)
  getopt_long : List CStr → List GetoptRet

/-- The function `loadFromFile`; its buffer has 4096 bytes. -/
def loadFromFile (b : Build) (env : Env) (path : CStr) (st : State) : Outcome (Int × State) :=
  match env.fopen path with
  | none => .ok (-1, st)
  | some content => (loadLines b (fgetsAll 4096 content []) st).bind fun st1 => .ok (0, st1)

/-! ## Loader selection in `main` -/

/-- The loader selection of `main`: the value of `rc` and the state after it. -/
def main_load (b : Build) (env : Env) (argv : List CStr) (st : State) : Outcome (Int × State) :=
  let argc := argv.length
  if argc ≥ 2 ∧ (argv.getD 1 []).headD NUL ≠ '-' then
    (loadFromFile b env (argv.getD 1 []) st).bind fun r =>
      if argc > 2 then loadFromCLI b (env.getopt_long argv) r.2 else .ok r
  else if argc > 1 then loadFromCLI b (env.getopt_long argv) st
  else if b.WIN32 then loadFromFile b env "edge.conf".toList st
  else .ok (-1, st)

/-! ## Option codes -/

/-- Whether the `switch` of `setOption` has a `case` label for the code in
this build. -/
def recognized (b : Build) (c : Char) : Bool :=
  c ∈ ['a', 'c', 'E', 'm', 'M', 'k', 'r', 'l', 'i', 'L', 'p', 't', 's', 'S', 'h', 'v']
    || ((c == 'u' || c == 'g' || c == 'f') && !b.WIN32)
    || (c == 'D' && !b.APPLE)
    || (c == 'A' && b.N2N_HAVE_AES)
    || (c == 'd' && b.N2N_CAN_NAME_IFACE)
    || (c == 'T' && b.LINUX)

/-- The text of a file: the lines, each followed by a newline, then a last line
without one (empty when the file ends in a newline). -/
def fileText : List (List Char) → List Char → List Char
  | [], last => last
  | l :: ls, last => l ++ '\n' :: fileText ls last

/-- A value with nothing for `trim` to remove: it is not empty and neither
starts nor ends with white space or a quote. -/
def clean (v : CStr) : Bool :=
  match v.head?, v.getLast? with
  | some h, some l => !trimCh h && !trimCh l
  | _, _ => false

/-! ## Concrete instances -/

/-- A Linux build with the sizes of the n2n headers: interface names and
community names of 16 bytes, two supernodes, an 8-bit `tos`. -/
def linuxBuild : Build where
  WIN32 := false
  APPLE := false
  LINUX := true
  N2N_HAVE_AES := true
  N2N_CAN_NAME_IFACE := true
  N2N_IFNAMSIZ := 16
  N2N_COMMUNITY_SIZE := 16
  N2N_EDGE_NUM_SUPERNODES := 2
  tos_of_long := fun v => v % 256
  ifnamsiz_pos := by decide
  community_size_pos := by decide

/-- An environment with one file content, whatever the path, and one sequence
of `getopt_long` results, whatever the arguments. -/
def envOf (content : List Char) (rets : List GetoptRet) : Env where
  fopen := fun _ => some content
  getopt_long := fun _ => rets

/-- A buffer of the given size holding the given string, NULs after it. -/
def bufOf (size : Nat) (s : String) : Buf :=
  s.toList.take size ++ List.replicate (size - s.length) NUL

/-- A state to evaluate on, before any loader has run: ProcessConfig as `main`
sets it up when there is no `n2n` or `nobody` account, with 1400 for
`DEFAULT_MTU`; EngineConfig with sample values for what
`edge_init_conf_defaults` of the engine library stores (no key, transform
none, no supernode); `optarg` still `NULL`. -/
def defaultState : State where
  ec :=
    { tuntap_dev_name := bufOf 16 "edge0"
      ip_mode := bufOf 16 "static"
      ip_addr := bufOf 16 ""
      netmask := bufOf 16 "255.255.255.0"
      device_mac := bufOf 18 ""
      mtu := 1400
      got_s := 0
      daemon := 1
      userid := 0
      groupid := 0 }
  conf :=
    { community_name := bufOf 16 ""
      encrypt_key := none
      transop_id := .N2N_TRANSFORM_ID_NULL
      supernodes := []
      dyn_ip_mode := 0
      allow_routing := 0
      drop_multicast := 1
      allow_p2p := 1
      disable_pmtu_discovery := 1
      tos := 16
      register_interval := 20
      register_ttl := 1
      local_port := 0
      mgmt_port := 5644 }
  optarg := none
  traceLevel := 2

/-! ## Sequences of options -/

/-- One `setOption` call after another, each on the state the call before it
returned; the values returned are dropped. -/
def setOptions (b : Build) : List (Char × Option CStr) → State → Outcome State
  | [], st => .ok st
  | (k, arg) :: rest, st => (setOption b k arg st).bind fun r => setOptions b rest r.2

/-! ## `term_handler` -/

/-- The variables of the termination handler: its `static int called` and the
global `keep_on_running`. -/
structure SigState where
  called : Int
  keep_on_running : Int
  deriving DecidableEq, Repr

/-- The function `term_handler`: when `called` is set it calls `_exit(0)`;
otherwise it sets `called` and then clears `keep_on_running`. -/
def term_handler (s : SigState) : Outcome SigState :=
  if s.called ≠ 0 then .exit 0
  else .ok { called := 1, keep_on_running := 0 }

/-- Deliveries of the termination signal one after another; before each one
the rest of the program may have stored the given value in `keep_on_running`
(as `main` stores 1 before it enters the engine loop). -/
def deliveries : List Int → SigState → Outcome SigState
  | [], s => .ok s
  | flag :: rest, s =>
    (term_handler { s with keep_on_running := flag }).bind fun s1 => deliveries rest s1

/-! ## What `trim` is to return -/

/-- The string `s` with its longest prefix and its longest suffix of
characters to remove taken away; when they overlap nothing is left. -/
def trimSpec (s : CStr) : CStr :=
  let pre := (s.takeWhile trimCh).length
  let suf := (s.reverse.takeWhile trimCh).length
  (s.drop pre).take (s.length - pre - suf)

/-! ## Bounded strings -/

/-- The bytes of a string field of `size` bytes in which the text `v` has been
stored: the first `size - 1` characters of `v`, then NULs up to `size`. -/
def padded (size : Nat) (v : CStr) : Buf :=
  v.take (size - 1) ++ List.replicate (size - min v.length (size - 1)) NUL

/-! ## Numerals -/

/-- The decimal digits. -/
def isDecDigit (c : Char) : Bool :=
  c ∈ ['9', '8', '7', '6', '5', '4', '3', '2', '1', '0']

/-- The hexadecimal digits: the decimal digits and the letters `a` to `f` in
either case. -/
def isHexDigit (c : Char) : Bool :=
  isDecDigit c || c ∈ ['a', 'b', 'c', 'd', 'e', 'f', 'A', 'B', 'C', 'D', 'E', 'F']

/-- The value of a hexadecimal digit. -/
def hexDigitValue (c : Char) : Nat :=
  match c with
  | '0' => 0 | '1' => 1 | '2' => 2 | '3' => 3 | '4' => 4
  | '5' => 5 | '6' => 6 | '7' => 7 | '8' => 8 | '9' => 9
  | 'a' => 10 | 'b' => 11 | 'c' => 12 | 'd' => 13 | 'e' => 14 | 'f' => 15
  | 'A' => 10 | 'B' => 11 | 'C' => 12 | 'D' => 13 | 'E' => 14 | 'F' => 15
  | _ => 0

/-- The base-16 value of a string of hexadecimal digits. -/
def hexValue (h : List Char) : Nat :=
  h.foldl (fun acc c => 16 * acc + hexDigitValue c) 0


/-- The decimal value of a string of decimal digits, 0 for the empty one. -/
def decValue (d : List Char) : Nat :=
  d.foldl (fun acc c => 10 * acc + hexDigitValue c) 0

/-- A Linux build in which the `tos` field is a `long`, so that storing a
`long` changes nothing. -/
def wideBuild : Build := { linuxBuild with tos_of_long := fun v => v }

/-! ## `main` after the loaders -/

/-- The calls of `main` that are visible outside it, in the order made. -/
inductive Event where
  | help
  | edge_verify_conf
  | setuid_root
  | tuntap_open
  | edge_init
  | fork
  | setgid
  | setuid
  | signal
  | run_edge_loop
  | print_edge_stats
  | edge_term
  | tuntap_close
  | free_key
  deriving DecidableEq, Repr

/-- What the collaborators of `main` answer: the value `edge_verify_conf`
returns, the value `tuntap_open` returns, whether `edge_init` returns an
instance, the value `fork` returns in this process, the values `setgid` and
`setuid` return, and the value `run_edge_loop` returns. -/
structure Sys where
  edge_verify_conf : n2n_edge_conf_t → Int
  tuntap_open : n2n_priv_config_t → Int
  edge_init : n2n_edge_conf_t → Bool
  fork : Int
  setgid : Int → Int
  setuid : Int → Int
  run_edge_loop : Int

/-- The end of `main`: the handlers are installed where there are any, the
engine loop runs, then statistics, `edge_term`, `tuntap_close`, the key is
freed if there is one, and `main` returns what the loop returned. The result
is the calls made and the exit status. -/
def main_run (b : Build) (sys : Sys) (st : State) (trace : List Event) : List Event × Int :=
  (trace ++ (if b.LINUX || b.WIN32 then [Event.signal] else [])
      ++ [.run_edge_loop, .print_edge_stats, .edge_term, .tuntap_close]
      ++ (if st.conf.encrypt_key.isSome then [Event.free_key] else []),
    sys.run_edge_loop)

/-- The privilege drop of `main`, absent under `WIN32`: with a user or group
id other than 0, `setgid` and then, if it succeeded, `setuid`; a failure of
either is `exit(1)`. -/
def main_drop (b : Build) (sys : Sys) (st : State) (trace : List Event) : List Event × Int :=
  if b.WIN32 then main_run b sys st trace
  else if st.ec.userid ≠ 0 ∨ st.ec.groupid ≠ 0 then
    if sys.setgid st.ec.groupid ≠ 0 then (trace ++ [.setgid], 1)
    else if sys.setuid st.ec.userid ≠ 0 then (trace ++ [.setgid, .setuid], 1)
    else main_run b sys st (trace ++ [.setgid, .setuid])
  else main_run b sys st trace

/-- The call of `daemonize` in `main`, absent under `WIN32`: with the daemon
flag set the process forks; the parent calls `exit(0)`, the child goes on, and
so does the process when `fork` failed. -/
def main_daemon (b : Build) (sys : Sys) (st : State) (trace : List Event) : List Event × Int :=
  if !b.WIN32 && st.ec.daemon != 0 then
    if sys.fork > 0 then (trace ++ [.fork], 0)
    else main_drop b sys st (trace ++ [.fork])
  else main_drop b sys st trace

/-- The test of the mode in `main`: with the mode `dhcp` the dynamic address
flag of the engine configuration is set. -/
def main_dhcp (st : State) : State :=
  if cstr st.ec.ip_mode = "dhcp".toList
  then { st with conf := { st.conf with dyn_ip_mode := 1 } }
  else st

/-- The function `main` from the test of `rc` on, with the value of `rc` and
the state the loaders left. The result is the calls made and the status the
process ends with: the argument of `exit`, or the value `main` returns. -/
def main_startup (b : Build) (sys : Sys) (rc : Int) (st : State) : List Event × Int :=
  if rc < 0 then ([.help], 0)
  else if sys.edge_verify_conf st.conf ≠ 0 then ([.edge_verify_conf, .help], 0)
  else
    let st1 := main_dhcp st
    if ¬ ((b.LINUX = true → st1.ec.tuntap_dev_name.headD NUL ≠ NUL)
          ∧ st1.ec.ip_addr.headD NUL ≠ NUL) then
      ([.edge_verify_conf, .help], 0)
    else
      let t1 : List Event :=
        [.edge_verify_conf] ++ (if b.WIN32 then [] else [Event.setuid_root]) ++ [.tuntap_open]
      if sys.tuntap_open st1.ec < 0 then (t1, -1)
      else if ¬ sys.edge_init st1.conf then (t1 ++ [.edge_init], 1)
      else main_daemon b sys st1 (t1 ++ [.edge_init])

/-- The function `main` from the loader selection on, on the state the
defaults give: an outcome of the loaders other than a return is the outcome of
`main`. -/
def main (b : Build) (env : Env) (sys : Sys) (argv : List CStr) (st : State) :
    Outcome (List Event × Int) :=
  (main_load b env argv st).bind fun r => .ok (main_startup b sys r.1 r.2)

/-- Collaborators that all succeed, in a process that is the child of the
fork, with an engine loop that returns 0. -/
def sysOk : Sys where
  edge_verify_conf := fun _ => 0
  tuntap_open := fun _ => 0
  edge_init := fun _ => true
  fork := 0
  setgid := fun _ => 0
  setuid := fun _ => 0
  run_edge_loop := 0

/-- Collaborators as in `sysOk`, except that `edge_init` returns `NULL`. -/
def sysInitFails : Sys := { sysOk with edge_init := fun _ => false }

/-- Collaborators as in `sysOk`, except that `setgid` fails. -/
def sysDropFails : Sys := { sysOk with setgid := fun _ => -1 }

/-- Collaborators as in `sysOk`, except that `tuntap_open` fails. -/
def sysOpenFails : Sys := { sysOk with tuntap_open := fun _ => -1 }

/-- The sample state with an address and a user id given. -/
def readyState : State :=
  { defaultState with ec := { defaultState.ec with
      ip_addr := bufOf 16 "10.0.0.1", userid := 65534, groupid := 65534 } }

/-- An environment in which no file can be opened, with one sequence of
`getopt_long` results, whatever the arguments. -/
def envNoFile (rets : List GetoptRet) : Env where
  fopen := fun _ => none
  getopt_long := fun _ => rets

/-! ## Lemmas on outcomes and lists -/

@[simp]
theorem Outcome.bind_ok {α β : Type} (a : α) (f : α → Outcome β) :
    (Outcome.ok a).bind f = f a := rfl

@[simp]
theorem Outcome.bind_exit {α β : Type} (s : Int) (f : α → Outcome β) :
    (Outcome.exit s : Outcome α).bind f = .exit s := rfl

@[simp]
theorem Outcome.bind_fault {α β : Type} (f : α → Outcome β) :
    (Outcome.fault : Outcome α).bind f = .fault := rfl


theorem takeWhile_of_all {p : Char → Bool} (l : List Char) (h : ∀ c ∈ l, p c = true) :
    l.takeWhile p = l := by
  induction l with
  | nil => rfl
  | cons x xs ih =>
    have hx : p x = true := h x (List.mem_cons_self x xs)
    have hxs : ∀ c ∈ xs, p c = true := fun c hc => h c (List.mem_cons_of_mem x hc)
    simp [List.takeWhile, hx, ih hxs]

theorem dropWhile_of_all {p : Char → Bool} (l r : List Char) (h : ∀ c ∈ l, p c = true) :
    (l ++ r).dropWhile p = r.dropWhile p := by
  induction l with
  | nil => rfl
  | cons x xs ih =>
    have hx : p x = true := h x (List.mem_cons_self x xs)
    have hxs : ∀ c ∈ xs, p c = true := fun c hc => h c (List.mem_cons_of_mem x hc)
    simp [List.dropWhile, hx, ih hxs]

theorem takeWhile_append_stop {p : Char → Bool} (l r : List Char) (x : Char)
    (h : ∀ c ∈ l, p c = true) (hx : p x = false) :
    (l ++ x :: r).takeWhile p = l := by
  induction l with
  | nil => simp [List.takeWhile, hx]
  | cons y ys ih =>
    have hy : p y = true := h y (List.mem_cons_self y ys)
    have hys : ∀ c ∈ ys, p c = true := fun c hc => h c (List.mem_cons_of_mem y hc)
    simp [List.takeWhile, hy, ih hys]

theorem neColon_of_not_mem (s : List Char) (h : ':' ∉ s) :
    ∀ c ∈ s, (fun c : Char => c != ':') c = true := by
  intro c hc
  have : c ≠ ':' := fun e => h (e ▸ hc)
  simpa using this

/-- Writing NUL over a NUL of the padding changes nothing. -/
theorem setNul_pad (l : List Char) (k i : Nat) (h : l.length ≤ i) :
    setNul (l ++ List.replicate k NUL) i = l ++ List.replicate k NUL := by
  unfold setNul
  apply List.ext_getElem
  · simp
  · intro j h1 h2
    rw [List.getElem_set]
    split
    · next hij =>
      subst hij
      rw [List.getElem_append_right h]
      simp
    · rfl

/-- A capacity-`n` buffer cleared and then filled by `strncpy` with room left
for the terminator. -/
theorem strncpy_cleared (a : Buf) (s : CStr) (n : Nat) (ha : a.length = n) (hn : 1 ≤ n) :
    strncpy (memset0 a n) s (n - 1)
      = s.take (n - 1) ++ List.replicate (n - min s.length (n - 1)) NUL := by
  unfold strncpy memset0
  have hd : a.drop n = [] := by simp [ha]
  rw [hd, List.append_nil, List.drop_replicate, List.append_assoc, List.append_replicate_replicate]
  congr 2
  omega

theorem span_colon (mode addr : List Char) (h : ':' ∉ mode) :
    (mode ++ ':' :: addr).takeWhile (fun c => c != ':') = mode
      ∧ (mode ++ ':' :: addr).dropWhile (fun c => c != ':') = ':' :: addr := by
  constructor
  · exact takeWhile_append_stop mode addr ':' (neColon_of_not_mem mode h) (by decide)
  · rw [dropWhile_of_all mode _ (neColon_of_not_mem mode h)]
    simp [List.dropWhile]

theorem dropWhile_no_colon (s : List Char) (h : ':' ∉ s) :
    s.dropWhile (fun c => c != ':') = [] := by
  have := dropWhile_of_all s [] (neColon_of_not_mem s h)
  simpa using this

/-! ## `scan_address` -/

/-- C1 (code at the failing input): for the token `10.0.0.5`, which is present
and has no colon, with both buffers present, `scan_address` fills the address
buffer and leaves the mode alone, yet returns -1, the value of failure. -/
theorem scan_address_plain_token_returns_failure :
    scan_address (some (bufOf 16 "")) 16 (some (bufOf 16 "static")) 16
        (some "10.0.0.5".toList)
      = .ok (-1, some (bufOf 16 "10.0.0.5"), some (bufOf 16 "static")) := by
  decide

/-- C2: for every token `s` without a colon and every address capacity
`n ≥ 1`, `scan_address` returns, hands back the mode buffer as it was, and
leaves in the address buffer the first `min (len s) (n - 1)` bytes of `s`
followed by NULs up to the capacity. -/
theorem scan_address_no_colon (a : Buf) (n : Nat) (m : Option Buf) (mode_size : Nat)
    (s : CStr) (ha : a.length = n) (hn : 1 ≤ n) (hs : ':' ∉ s) :
    ∃ rv, scan_address (some a) n m mode_size (some s)
      = .ok (rv, some (s.take (min s.length (n - 1))
                        ++ List.replicate (n - min s.length (n - 1)) NUL), m) := by
  refine ⟨-1, ?_⟩
  have hn0 : n ≠ 0 := by omega
  have ht : s.take (min s.length (n - 1)) = s.take (n - 1) := by
    rw [List.take_eq_take]; omega
  simp only [scan_address, dropWhile_no_colon s hs, hn0, if_false, strncpy_cleared a s n ha hn, ht]
  rw [setNul_pad]
  simp only [List.length_take]
  omega

/-- C2 (witness): the token `10.0.0.5` in a 16-byte address buffer. -/
theorem scan_address_no_colon_witness :
    ∃ rv, scan_address (some (bufOf 16 "")) 16 (some (bufOf 16 "static")) 16
        (some "10.0.0.5".toList)
      = .ok (rv, some ("10.0.0.5".toList.take (min "10.0.0.5".toList.length (16 - 1))
                        ++ List.replicate (16 - min "10.0.0.5".toList.length (16 - 1)) NUL),
              some (bufOf 16 "static")) :=
  scan_address_no_colon (bufOf 16 "") 16 (some (bufOf 16 "static")) 16 "10.0.0.5".toList
    (by decide) (by decide) (by decide)

/-- C3: for every token `mode ++ ":" ++ addr` with no colon in `mode`, a present
mode buffer of capacity `m ≥ 1` and an address buffer of capacity `n ≥ 1`,
`scan_address` returns 0, the mode buffer holds the first
`min (len mode) (m - 1)` bytes of `mode` and the address buffer the first
`min (len addr) (n - 1)` bytes of `addr`, each followed by NULs up to its
capacity. -/
theorem scan_address_colon (a : Buf) (n : Nat) (mb : Buf) (m : Nat) (mode addr : CStr)
    (ha : a.length = n) (hmb : mb.length = m) (hn : 1 ≤ n) (hm : 1 ≤ m)
    (hmode : ':' ∉ mode) :
    scan_address (some a) n (some mb) m (some (mode ++ ':' :: addr))
      = .ok (0, some (addr.take (min addr.length (n - 1))
                        ++ List.replicate (n - min addr.length (n - 1)) NUL),
                some (mode.take (min mode.length (m - 1))
                        ++ List.replicate (m - min mode.length (m - 1)) NUL)) := by
  have hn0 : n ≠ 0 := by omega
  have hm0 : m ≠ 0 := by omega
  have hta : addr.take (min addr.length (n - 1)) = addr.take (n - 1) := by
    rw [List.take_eq_take]; omega
  have hmode2 : strncpy (memset0 mb m) (mode ++ ':' :: addr) (min mode.length (m - 1))
      = mode.take (min mode.length (m - 1))
          ++ List.replicate (m - min mode.length (m - 1)) NUL := by
    unfold strncpy memset0
    have hd : mb.drop m = [] := by simp [hmb]
    have hz : min mode.length (m - 1) - (mode ++ ':' :: addr).length = 0 := by
      simp only [List.length_append, List.length_cons]; omega
    rw [hd, List.append_nil, List.drop_replicate, hz, List.replicate_zero, List.append_nil,
      List.take_append_of_le_length (Nat.min_le_left _ _)]
  simp only [scan_address, (span_colon mode addr hmode).1, (span_colon mode addr hmode).2,
    hn0, hm0, if_false, strncpy_cleared a addr n ha hn, hta, hmode2]

/-- C3 (witness): the token `dhcp:0.0.0.0` with 16-byte buffers gives mode
`dhcp` and address `0.0.0.0`. -/
theorem scan_address_colon_witness :
    scan_address (some (bufOf 16 "")) 16 (some (bufOf 16 "static")) 16
        (some ("dhcp".toList ++ ':' :: "0.0.0.0".toList))
      = .ok (0, some ("0.0.0.0".toList.take (min "0.0.0.0".toList.length (16 - 1))
                        ++ List.replicate (16 - min "0.0.0.0".toList.length (16 - 1)) NUL),
                some ("dhcp".toList.take (min "dhcp".toList.length (16 - 1))
                        ++ List.replicate (16 - min "dhcp".toList.length (16 - 1)) NUL)) :=
  scan_address_colon (bufOf 16 "") 16 (bufOf 16 "static") 16 "dhcp".toList "0.0.0.0".toList
    (by decide) (by decide) (by decide) (by decide) (by decide)

/-! ## `setOption` on a code without a `case` -/

theorem setOption_default (b : Build) (optkey : Char) (optargument : Option CStr) (st : State)
    (h : recognized b optkey = false) :
    setOption b optkey optargument st = .ok (-1, st) := by
  simp only [recognized, Bool.or_eq_false_iff, Bool.and_eq_false_imp, decide_eq_false_iff_not,
    List.mem_cons, List.mem_singleton, not_or, beq_iff_eq, Bool.not_eq_true',
    Bool.or_eq_true, List.not_mem_nil, not_false_eq_true, and_true] at h
  unfold setOption
  split <;> simp_all

/-- The short-option branch of `confLine`: the code is the character after
the dash, the next character is dropped, the rest is trimmed. -/
theorem confLine_short (b : Build) (buffer : List Char) (st : State) (x : Char)
    (tl : List Char) (hline : trim (cstr buffer) = '-' :: x :: tl) (hx : x ≠ '-') :
    confLine b buffer st
      = (setOption b x (if tl.length > 1 then some (trim (tl.drop 1)) else none) st).bind
          fun r => .ok r.2 := by
  have h1 : ¬ (tl.length + 1 + 1 < 2) := by omega
  have h2 : (2 < tl.length + 1) = (1 < tl.length) := by
    apply propext; omega
  simp [confLine, hline, hx, h1, h2]

/-- C10: in every build, for every code the `switch` has no `case` for and
every argument, present or not, `setOption` returns -1 with the state, hence
both aggregates, unchanged, and the process goes on; `b` is such a code; and
the file loader, at a line whose trimmed text is a dash followed by such a
code, goes on with the following lines on the unchanged state. -/
theorem setOption_unknown (b : Build) (optkey : Char) (optargument : Option CStr) (st : State)
    (h : recognized b optkey = false) :
    setOption b optkey optargument st = .ok (-1, st)
      ∧ recognized b 'b' = false
      ∧ ∀ (buffer : List Char) (rest : List (List Char)) (tl : List Char),
          trim (cstr buffer) = '-' :: optkey :: tl → optkey ≠ '-' →
          loadLines b (buffer :: rest) st = loadLines b rest st := by
  refine ⟨setOption_default b optkey optargument st h, by simp [recognized], ?_⟩
  intro buffer rest tl hline hx
  simp [loadLines, confLine_short b buffer st optkey tl hline hx,
    setOption_default b optkey _ st h, Outcome.bind]

/-- C10 (witness): the code `b` with the argument `x`, and the file line `-b x`
followed by the line `-r`. -/
theorem setOption_unknown_witness :
    setOption linuxBuild 'b' (some ['x']) defaultState = .ok (-1, defaultState)
      ∧ loadLines linuxBuild ["-b x\n".toList, "-r\n".toList] defaultState
          = loadLines linuxBuild ["-r\n".toList] defaultState :=
  have h := setOption_unknown linuxBuild 'b' (some ['x']) defaultState (by decide)
  ⟨h.1, h.2.2 "-b x\n".toList ["-r\n".toList] [' ', 'x'] (by decide) (by decide)⟩

/-! ## Re-applying an option -/

theorem drop_memset0 (d : Buf) (k n : Nat) (hk : k ≤ n) :
    (memset0 d k).drop n = d.drop n := by
  unfold memset0
  rw [List.drop_append_eq_append_drop, List.drop_eq_nil_of_le (by simp [hk]), List.drop_drop]
  simp only [List.length_replicate, List.nil_append]
  congr 1; omega

theorem drop_strncpy (d : Buf) (s : CStr) (k n : Nat) (hk : k ≤ n) :
    (strncpy d s k).drop n = d.drop n := by
  unfold strncpy
  have hl : (s.take k ++ List.replicate (k - s.length) NUL).length = k := by
    simp only [List.length_append, List.length_take, List.length_replicate]; omega
  rw [List.drop_append_eq_append_drop, List.drop_eq_nil_of_le (by omega), List.drop_drop, hl]
  simp only [List.nil_append]
  congr 1; omega

theorem drop_setNul (l : Buf) (i n : Nat) (h : i < n) : (setNul l i).drop n = l.drop n :=
  List.drop_set_of_lt NUL l h

theorem strncpy_eq_of_drop (d d1 : Buf) (s : CStr) (n : Nat) (h : d1.drop n = d.drop n) :
    strncpy d1 s n = strncpy d s n := by
  unfold strncpy; rw [h]

theorem memset0_eq_of_drop (d d1 : Buf) (n : Nat) (h : d1.drop n = d.drop n) :
    memset0 d1 n = memset0 d n := by
  unfold memset0; rw [h]

/-- A field written by `copyField` and written again holds the second value
alone. -/
theorem copyField_twice (f : Buf) (v1 v2 : CStr) (n : Nat) (hn : 0 < n) :
    setNul (strncpy (setNul (strncpy f v1 n) (n - 1)) v2 n) (n - 1)
      = setNul (strncpy f v2 n) (n - 1) := by
  rw [strncpy_eq_of_drop f _ v2 n]
  rw [drop_setNul _ _ _ (by omega), drop_strncpy _ _ _ _ (le_refl n)]

theorem reapply_copy (b : Build) (st : State) (v1 v2 : CStr) (k : Char)
    (hk : k ∈ ['c', 'm', 's', 'd']) :
    (setOption b k (some v1) st).bind (fun r => setOption b k (some v2) r.2)
      = setOption b k (some v2) st := by
  have hc := b.community_size_pos
  have hi := b.ifnamsiz_pos
  simp only [List.mem_cons, List.mem_singleton, List.not_mem_nil, or_false] at hk
  rcases hk with rfl | rfl | rfl | rfl
  · simp only [setOption, copyField, Outcome.bind_ok]
    rw [memset0_eq_of_drop st.conf.community_name _ b.N2N_COMMUNITY_SIZE
      (by rw [drop_setNul _ _ _ (by omega), drop_strncpy _ _ _ _ (le_refl _),
            drop_memset0 _ _ _ (le_refl _)])]
  · simp only [setOption, copyField, Outcome.bind_ok, N2N_MACNAMSIZ]
    rw [copyField_twice _ _ _ _ (by decide)]
  · simp only [setOption, copyField, Outcome.bind_ok, N2N_NETMASK_STR_SIZE]
    rw [copyField_twice _ _ _ _ (by decide)]
  · simp only [setOption, copyField]
    by_cases h : b.N2N_CAN_NAME_IFACE = true
    · simp only [h, if_true, Outcome.bind_ok]
      rw [copyField_twice _ _ _ _ hi]
    · simp [h]

theorem reapply_number (b : Build) (st : State) (v1 v2 : CStr) (k : Char)
    (hk : k ∈ ['k', 'M', 'p', 't', 'i', 'L', 'u', 'g', 'T']) :
    (setOption b k (some v1) st).bind (fun r => setOption b k (some v2) r.2)
      = setOption b k (some v2) st := by
  simp only [List.mem_cons, List.mem_singleton, List.not_mem_nil, or_false] at hk
  rcases hk with rfl | rfl | rfl | rfl | rfl | rfl | rfl | rfl | rfl
  · simp only [setOption, Outcome.bind_ok]
    cases st.conf.transop_id <;> simp
  · simp [setOption, atoi]
  · simp [setOption, atoi]
  · simp [setOption, atoi]
  · simp [setOption, atoi]
  · cases h : st.optarg <;> simp [setOption, atoi, h]
  · by_cases h : b.WIN32 = true <;> simp [setOption, atoi, h]
  · by_cases h : b.WIN32 = true <;> simp [setOption, atoi, h]
  · by_cases h : b.LINUX = true
    · simp only [setOption, h, if_true]
      split <;> split <;> simp_all
    · simp [setOption, h]

theorem setOption_a_plain (b : Build) (st : State) (v : CStr)
    (h : v.dropWhile (fun c => c != ':') = []) :
    setOption b 'a' (some v) st
      = .ok (0, { st with ec := { st.ec with
          ip_addr := setNul (strncpy (memset0 st.ec.ip_addr 16) v 15) 15 } }) := by
  simp [setOption, scan_address, h, N2N_NETMASK_STR_SIZE, N2N_IF_MODE_SIZE]

theorem setOption_a_colon (b : Build) (st : State) (v after : CStr) (c : Char)
    (h : v.dropWhile (fun c => c != ':') = c :: after) :
    setOption b 'a' (some v) st
      = .ok (0, { st with ec := { st.ec with
          ip_addr := strncpy (memset0 st.ec.ip_addr 16) after 15,
          ip_mode := strncpy (memset0 st.ec.ip_mode 16) v
            (min (v.takeWhile (fun c => c != ':')).length 15) } }) := by
  simp [setOption, scan_address, h, N2N_NETMASK_STR_SIZE, N2N_IF_MODE_SIZE]

theorem reapply_address (b : Build) (st : State) (v1 v2 : CStr)
    (h : ':' ∈ v2 ∨ ':' ∉ v1) :
    (setOption b 'a' (some v1) st).bind (fun r => setOption b 'a' (some v2) r.2)
      = setOption b 'a' (some v2) st := by
  have hmem : ∀ v : CStr, v.dropWhile (fun c => c != ':') = [] → ':' ∉ v := by
    intro v hv hin
    have := (List.dropWhile_eq_nil_iff.mp hv) ':' hin
    simp at this
  have haddr1 : ∀ a : Buf,
      memset0 (setNul (strncpy (memset0 a 16) v1 15) 15) 16 = memset0 a 16 := by
    intro a
    apply memset0_eq_of_drop
    rw [drop_setNul _ _ _ (by decide), drop_strncpy _ _ _ _ (by decide),
      drop_memset0 _ _ _ (le_refl _)]
  have haddr2 : ∀ (a : Buf) (s : CStr),
      memset0 (strncpy (memset0 a 16) s 15) 16 = memset0 a 16 := by
    intro a s
    apply memset0_eq_of_drop
    rw [drop_strncpy _ _ _ _ (by decide), drop_memset0 _ _ _ (le_refl _)]
  have hmode : ∀ (m : Buf) (s : CStr) (k : Nat), k ≤ 16 →
      memset0 (strncpy (memset0 m 16) s k) 16 = memset0 m 16 := by
    intro m s k hk
    apply memset0_eq_of_drop
    rw [drop_strncpy _ _ _ _ hk, drop_memset0 _ _ _ (le_refl _)]
  cases h1 : v1.dropWhile (fun c => c != ':') with
  | nil =>
    cases h2 : v2.dropWhile (fun c => c != ':') with
    | nil =>
      rw [setOption_a_plain b st v1 h1, Outcome.bind_ok, setOption_a_plain b _ v2 h2,
        setOption_a_plain b st v2 h2]
      simp only [haddr1]
    | cons c2 after2 =>
      rw [setOption_a_plain b st v1 h1, Outcome.bind_ok, setOption_a_colon b _ v2 after2 c2 h2,
        setOption_a_colon b st v2 after2 c2 h2]
      simp only [haddr1]
  | cons c1 after1 =>
    cases h2 : v2.dropWhile (fun c => c != ':') with
    | nil =>
      rcases h with h | h
      · exact absurd h (hmem v2 h2)
      · have := List.dropWhile_eq_nil_iff.mpr (neColon_of_not_mem v1 h)
        rw [h1] at this
        exact absurd this (by simp)
    | cons c2 after2 =>
      rw [setOption_a_colon b st v1 after1 c1 h1, Outcome.bind_ok,
        setOption_a_colon b _ v2 after2 c2 h2, setOption_a_colon b st v2 after2 c2 h2]
      have hk : min (v1.takeWhile (fun c => c != ':')).length 15 ≤ 16 := by omega
      simp only [haddr2, hmode _ _ _ hk]

/-- C5 (counterexample): `-a dhcp:0.0.0.0` followed by `-a 10.0.0.5` leaves the
mode `dhcp`, whereas `-a 10.0.0.5` alone from the same state leaves the mode
`static`: the two final states differ. -/
theorem setOption_reapply_address_keeps_mode :
    (setOption linuxBuild 'a' (some "dhcp:0.0.0.0".toList) defaultState).bind
        (fun r => setOption linuxBuild 'a' (some "10.0.0.5".toList) r.2)
      = .ok (0, { defaultState with ec := { defaultState.ec with
            ip_addr := bufOf 16 "10.0.0.5", ip_mode := bufOf 16 "dhcp" } })
    ∧ setOption linuxBuild 'a' (some "10.0.0.5".toList) defaultState
      = .ok (0, { defaultState with ec := { defaultState.ec with
            ip_addr := bufOf 16 "10.0.0.5", ip_mode := bufOf 16 "static" } })
    ∧ (setOption linuxBuild 'a' (some "dhcp:0.0.0.0".toList) defaultState).bind
        (fun r => setOption linuxBuild 'a' (some "10.0.0.5".toList) r.2)
      ≠ setOption linuxBuild 'a' (some "10.0.0.5".toList) defaultState := by
  decide

/-- C5 (amended): in every build and from every state, for each of the codes
`c k m M s d p t i L u g T`, and for `a` when the second value has a colon or
the first has none, applying the code with `v1` and then with `v2` ends
exactly as applying it with `v2` alone, in return value and in state; and
after `-k v1` then `-k v2` the key is `v2`. -/
theorem setOption_reapply (b : Build) (st : State) (k : Char) (v1 v2 : CStr)
    (hk : k ∈ ['c', 'k', 'm', 'M', 's', 'd', 'p', 't', 'i', 'L', 'u', 'g', 'T']
            ∨ (k = 'a' ∧ (':' ∈ v2 ∨ ':' ∉ v1))) :
    (setOption b k (some v1) st).bind (fun r => setOption b k (some v2) r.2)
        = setOption b k (some v2) st
      ∧ ∃ st2, (setOption b 'k' (some v1) st).bind (fun r => setOption b 'k' (some v2) r.2)
            = .ok (0, st2) ∧ st2.conf.encrypt_key = some v2 := by
  constructor
  · rcases hk with hk | ⟨rfl, ha⟩
    · have hsplit : k ∈ ['c', 'm', 's', 'd'] ∨ k ∈ ['k', 'M', 'p', 't', 'i', 'L', 'u', 'g', 'T'] := by
        simp only [List.mem_cons, List.mem_singleton, List.not_mem_nil, or_false] at hk ⊢
        tauto
      rcases hsplit with h | h
      · exact reapply_copy b st v1 v2 k h
      · exact reapply_number b st v1 v2 k h
    · exact reapply_address b st v1 v2 ha
  · simp [setOption]

/-- C5 (witness): `-c communityA` then `-c communityB` from the sample state. -/
theorem setOption_reapply_witness :
    (setOption linuxBuild 'c' (some "communityA".toList) defaultState).bind
          (fun r => setOption linuxBuild 'c' (some "communityB".toList) r.2)
        = setOption linuxBuild 'c' (some "communityB".toList) defaultState
      ∧ ∃ st2, (setOption linuxBuild 'k' (some "communityA".toList) defaultState).bind
            (fun r => setOption linuxBuild 'k' (some "communityB".toList) r.2)
            = .ok (0, st2) ∧ st2.conf.encrypt_key = some "communityB".toList :=
  setOption_reapply linuxBuild defaultState 'c' "communityA".toList "communityB".toList
    (Or.inl (by decide))

/-! ## `trim` -/

theorem cstr_of_no_nul (l : List Char) (h : NUL ∉ l) : cstr l = l := by
  apply takeWhile_of_all
  intro c hc
  have : c ≠ NUL := fun e => h (e ▸ hc)
  simpa using this

theorem not_nul_of_trimCh (c : Char) (h : trimCh c = true) : c ≠ NUL := by
  intro e
  subst e
  revert h
  decide

/-- Trailing characters to remove are dropped up to the last character that
stays. -/
theorem rdrop_trailing (w tail : List Char) (l : Char) (hl : w.getLast? = some l)
    (hnl : trimCh l = false) (ht : ∀ c ∈ tail, trimCh c = true) :
    ((w ++ tail).reverse.dropWhile trimCh).reverse = w := by
  obtain ⟨ys, rfl⟩ := List.getLast?_eq_some_iff.mp hl
  have ht2 : ∀ c ∈ tail.reverse, trimCh c = true := fun c hc => ht c (List.mem_reverse.mp hc)
  rw [List.reverse_append, dropWhile_of_all _ _ ht2]
  simp [List.dropWhile, hnl]

theorem rdrop_all (tail : List Char) (ht : ∀ c ∈ tail, trimCh c = true) :
    (tail.reverse.dropWhile trimCh).reverse = [] := by
  have ht2 : ∀ c ∈ tail.reverse, trimCh c = true := fun c hc => ht c (List.mem_reverse.mp hc)
  rw [List.dropWhile_eq_nil_iff.mpr ht2]
  rfl

theorem clean_cons (v : CStr) (hv : clean v = true) :
    ∃ h rest l, v = h :: rest ∧ trimCh h = false ∧ v.getLast? = some l ∧ trimCh l = false := by
  cases v with
  | nil => simp [clean] at hv
  | cons h rest =>
    cases hl : (h :: rest).getLast? with
    | none => simp at hl
    | some l =>
      simp only [clean, List.head?_cons, hl, Bool.and_eq_true, Bool.not_eq_true'] at hv
      exact ⟨h, rest, l, rfl, hv.1, rfl, hv.2⟩

/-- What `trim` returns for a clean value between characters to remove. -/
theorem trim_surround (lead v tail : List Char) (hv : clean v = true)
    (hlead : ∀ c ∈ lead, trimCh c = true) (ht : ∀ c ∈ tail, trimCh c = true) :
    trim (lead ++ (v ++ tail)) = v := by
  obtain ⟨h, rest, l, rfl, hh, hl, hnl⟩ := clean_cons v hv
  have hd : ((h :: rest) ++ tail).dropWhile trimCh = h :: (rest ++ tail) := by
    simp [List.dropWhile_cons, hh]
  unfold trim
  rw [dropWhile_of_all _ _ hlead, hd]
  cases rest with
  | nil => simp [rdrop_all tail ht]
  | cons r rs =>
    have hl2 : (r :: rs).getLast? = some l := by
      simpa [List.getLast?_cons_cons] using hl
    simp only [rdrop_trailing (r :: rs) tail l hl2 hnl ht]

theorem trim_clean (v : List Char) (hv : clean v = true) : trim v = v := by
  have := trim_surround [] v [] hv (by simp) (by simp)
  simpa using this

/-- What `trim` returns for a line that starts with a dash and ends in a clean
value followed by characters to remove. -/
theorem trim_dash_line (mid v tail : List Char) (hv : clean v = true)
    (ht : ∀ c ∈ tail, trimCh c = true) :
    trim ('-' :: (mid ++ (v ++ tail))) = '-' :: (mid ++ v) := by
  obtain ⟨h, rest, l, rfl, hh, hl, hnl⟩ := clean_cons v hv
  have h0 : trimCh '-' = false := by decide
  have hlast : (mid ++ h :: rest).getLast? = some l := by
    rw [List.getLast?_append_of_ne_nil _ (by simp)]
    exact hl
  have hd : ('-' :: (mid ++ (h :: rest ++ tail))).dropWhile trimCh
      = '-' :: (mid ++ h :: rest ++ tail) := by
    simp [List.dropWhile_cons, h0]
  unfold trim
  rw [hd]
  simp only [rdrop_trailing (mid ++ h :: rest) tail l hlast hnl ht]

/-! ## Short options in the file -/

/-- The loop body at a piece that holds a dash, a code `x` other than the
dash, one more character and a clean value `v`, whatever white space or quotes
follow: `x` is applied with the value exactly `v`. -/
theorem confLine_short_clean (b : Build) (st : State) (x sep : Char) (v tail : List Char)
    (hx : x ≠ '-') (hnul : NUL ∉ x :: sep :: v) (hv : clean v = true)
    (ht : ∀ c ∈ tail, trimCh c = true) :
    confLine b ('-' :: x :: sep :: (v ++ tail)) st
      = (setOption b x (some v) st).bind (fun r => .ok r.2) := by
  have hnul2 : NUL ∉ '-' :: x :: sep :: (v ++ tail) := by
    intro hin
    simp only [List.mem_cons, List.mem_append] at hin hnul
    rcases hin with h | h | h | h | h
    · exact absurd h (by decide)
    · exact hnul (Or.inl h)
    · exact hnul (Or.inr (Or.inl h))
    · exact hnul (Or.inr (Or.inr h))
    · exact not_nul_of_trimCh NUL (ht NUL h) rfl
  have hline : trim (cstr ('-' :: x :: sep :: (v ++ tail))) = '-' :: x :: (sep :: v) := by
    rw [cstr_of_no_nul _ hnul2]
    exact trim_dash_line [x, sep] v tail hv ht
  obtain ⟨h, rest, l, rfl, -, -, -⟩ := clean_cons v hv
  rw [confLine_short b _ st x (sep :: h :: rest) hline hx]
  simp [trim_clean (h :: rest) hv]

/-! ## The registration TTL -/

/-- C9 (code at the failing input): the file line `-L 5`, read before any
`getopt_long` call so that `optarg` is `NULL`, makes `setOption` read through
`NULL`; with `optarg` left at `7` the same line stores 7; the same option from
the command line stores 5. -/
theorem file_ttl_reads_optarg :
    loadFromFile linuxBuild (envOf "-L 5\n".toList []) "edge.conf".toList defaultState = .fault
      ∧ loadFromFile linuxBuild (envOf "-L 5\n".toList []) "edge.conf".toList
          { defaultState with optarg := some "7".toList }
        = .ok (0, { defaultState with
                      optarg := some "7".toList,
                      conf := { defaultState.conf with register_ttl := 7 } })
      ∧ loadFromCLI linuxBuild [⟨76, some "5".toList⟩] defaultState
        = .ok (0, { defaultState with
                      optarg := some "5".toList,
                      conf := { defaultState.conf with register_ttl := 5 } }) := by
  decide

/-! ## Long options in the file -/

/-- The long-option branch of `confLine`, once the table entry is found. -/
theorem confLine_long (b : Build) (buffer : List Char) (st : State) (key : List Char)
    (opt : CStr × Bool × Char) (hline : trim (cstr buffer) = '-' :: '-' :: key)
    (hfind : long_options.find? (fun o => longMatch key key.length o.1) = some opt) :
    confLine b buffer st
      = (setOption b opt.2.2
          (if key.length > opt.1.length + 1 then some (trim (key.drop (opt.1.length + 1)))
           else none) st).bind fun r => .ok r.2 := by
  have h1 : ¬ (key.length + 1 + 1 < 2) := by omega
  simp [confLine, hline, h1, hfind]

theorem long_options_chars :
    long_options =
      [ (['c', 'o', 'm', 'm', 'u', 'n', 'i', 't', 'y'], true, 'c'),
        (['s', 'u', 'p', 'e', 'r', 'n', 'o', 'd', 'e', '-', 'l', 'i', 's', 't'], true, 'l'),
        (['t', 'u', 'n', '-', 'd', 'e', 'v', 'i', 'c', 'e'], true, 'd'),
        (['e', 'u', 'i', 'd'], true, 'u'),
        (['e', 'g', 'i', 'd'], true, 'g'),
        (['h', 'e', 'l', 'p'], false, 'h'),
        (['v', 'e', 'r', 'b', 'o', 's', 'e'], false, 'v') ] := by
  decide

/-- The loop over `long_options` stops at the alias the key starts with when a
space or `=` follows it. -/
theorem find_long (name : CStr) (code : Char) (sep : Char) (rest : List Char)
    (hopt : (name, true, code) ∈ long_options) (hsep : sep = ' ' ∨ sep = '=') :
    long_options.find?
        (fun o => longMatch (name ++ sep :: rest) (name ++ sep :: rest).length o.1)
      = some (name, true, code) := by
  rw [long_options_chars] at hopt ⊢
  simp only [List.mem_cons, List.mem_singleton, List.not_mem_nil, or_false, Prod.mk.injEq] at hopt
  rcases hopt with ⟨rfl, -, rfl⟩ | ⟨rfl, -, rfl⟩ | ⟨rfl, -, rfl⟩ | ⟨rfl, -, rfl⟩ | ⟨rfl, -, rfl⟩ |
    ⟨-, h, -⟩ | ⟨-, h, -⟩
  all_goals first
    | (rcases hsep with rfl | rfl <;> simp [List.find?, longMatch, List.getD]; done)
    | simp at h

theorem long_name_no_nul (name : CStr) (a : Bool) (code : Char)
    (hopt : (name, a, code) ∈ long_options) : NUL ∉ name := by
  rw [long_options_chars] at hopt
  simp only [List.mem_cons, List.mem_singleton, List.not_mem_nil, or_false, Prod.mk.injEq] at hopt
  rcases hopt with ⟨rfl, -, -⟩ | ⟨rfl, -, -⟩ | ⟨rfl, -, -⟩ | ⟨rfl, -, -⟩ | ⟨rfl, -, -⟩ |
    ⟨rfl, -, -⟩ | ⟨rfl, -, -⟩ <;> decide

theorem longMatch_other (name : CStr) (x : Char) (rest : List Char)
    (h1 : x ≠ ' ') (h2 : x ≠ '=') (h3 : x ≠ NUL) :
    longMatch (name ++ x :: rest) (name ++ x :: rest).length name = false := by
  have hg : (name ++ x :: rest).getD name.length NUL = x := by
    rw [List.getD_eq_getElem?_getD, List.getElem?_append_right (le_refl _)]
    simp
  unfold longMatch
  rw [hg]
  simp [h1, h2, h3]

/-- The loop body at a piece that holds two dashes, an alias that takes a
value, a space or `=`, and a value with a clean core `v` between white space
and quotes: the code of the alias is applied with the value exactly `v`. -/
theorem confLine_long_clean (b : Build) (st : State) (name : CStr) (code sep : Char)
    (lead v tail : List Char) (hopt : (name, true, code) ∈ long_options)
    (hsep : sep = ' ' ∨ sep = '=') (hnul : NUL ∉ v) (hv : clean v = true)
    (hlead : ∀ c ∈ lead, trimCh c = true) (ht : ∀ c ∈ tail, trimCh c = true) :
    confLine b ('-' :: '-' :: (name ++ sep :: (lead ++ (v ++ tail)))) st
        = (setOption b code (some v) st).bind (fun r => .ok r.2) := by
  have hsepnul : sep ≠ NUL := by rcases hsep with rfl | rfl <;> decide
  have hnul2 : NUL ∉ '-' :: '-' :: (name ++ sep :: (lead ++ (v ++ tail))) := by
    intro hin
    simp only [List.mem_cons, List.mem_append] at hin
    rcases hin with h | h | h | h | h | h | h
    · exact absurd h (by decide)
    · exact absurd h (by decide)
    · exact long_name_no_nul name true code hopt h
    · exact hsepnul h.symm
    · exact not_nul_of_trimCh NUL (hlead NUL h) rfl
    · exact hnul h
    · exact not_nul_of_trimCh NUL (ht NUL h) rfl
  have hline : trim (cstr ('-' :: '-' :: (name ++ sep :: (lead ++ (v ++ tail)))))
      = '-' :: '-' :: (name ++ sep :: (lead ++ v)) := by
    rw [cstr_of_no_nul _ hnul2]
    have := trim_dash_line ('-' :: (name ++ sep :: lead)) v tail hv ht
    simpa [List.append_assoc] using this
  obtain ⟨h, rest, l, rfl, -, -, -⟩ := clean_cons v hv
  rw [confLine_long b _ st _ _ hline (find_long name code sep _ hopt hsep)]
  have hlen : (name ++ sep :: (lead ++ h :: rest)).length > name.length + 1 := by
    simp only [List.length_append, List.length_cons]; omega
  have hdrop : (name ++ sep :: (lead ++ h :: rest)).drop (name.length + 1) = lead ++ h :: rest := by
    have e : name ++ sep :: (lead ++ h :: rest) = (name ++ [sep]) ++ (lead ++ h :: rest) := by simp
    rw [e]
    exact List.drop_left' (by simp)
  have htrim : trim (lead ++ h :: rest) = h :: rest := by
    have := trim_surround lead (h :: rest) [] hv hlead (by simp)
    simpa using this
  simp only [hlen, if_true, hdrop, htrim]

/-! ## Blank lines and comments -/

theorem fgetsAll_go (c : Char) (rest cur : List Char) (hc : c ≠ '\n')
    (hlen : cur.length + 1 ≠ 4095) :
    fgetsAll 4096 (c :: rest) cur = fgetsAll 4096 rest (c :: cur) := by
  have hcond : (c == '\n' || cur.length + 1 == 4096 - 1) = false := by
    have h2 : ¬ cur.length = 4094 := by omega
    simp [hc, h2]
  rw [fgetsAll, hcond]
  rfl

theorem fgetsAll_stop (c : Char) (rest cur : List Char)
    (h : c = '\n' ∨ cur.length + 1 = 4095) :
    fgetsAll 4096 (c :: rest) cur = (c :: cur).reverse :: fgetsAll 4096 rest [] := by
  have hcond : (c == '\n' || cur.length + 1 == 4096 - 1) = true := by
    rcases h with h | h <;> simp [h]
  rw [fgetsAll, hcond]
  rfl

/-- A line that fits the buffer with its newline is one piece for `fgets`. -/
theorem fgets_line (l rest cur : List Char) (hl : '\n' ∉ l)
    (hlen : cur.length + l.length + 1 ≤ 4095) :
    fgetsAll 4096 (l ++ '\n' :: rest) cur
      = (cur.reverse ++ l ++ ['\n']) :: fgetsAll 4096 rest [] := by
  induction l generalizing cur with
  | nil =>
    rw [List.nil_append, fgetsAll_stop _ _ _ (Or.inl rfl)]
    simp
  | cons c cs ih =>
    have hc : c ≠ '\n' := fun e => hl (e ▸ List.mem_cons_self c cs)
    have hcs : '\n' ∉ cs := fun h => hl (List.mem_cons_of_mem c h)
    have hne : cur.length + 1 ≠ 4095 := by
      simp only [List.length_cons] at hlen; omega
    rw [List.cons_append, fgetsAll_go _ _ _ hc hne,
      ih (c :: cur) hcs (by simp only [List.length_cons] at hlen ⊢; omega)]
    simp

/-- A last line without newline that fits the buffer is one piece, if it is
not empty. -/
theorem fgets_last (l cur : List Char) (hl : '\n' ∉ l) (hlen : cur.length + l.length ≤ 4094) :
    fgetsAll 4096 l cur
      = if (cur.reverse ++ l).isEmpty then [] else [cur.reverse ++ l] := by
  induction l generalizing cur with
  | nil => cases cur <;> simp [fgetsAll]
  | cons c cs ih =>
    have hc : c ≠ '\n' := fun e => hl (e ▸ List.mem_cons_self c cs)
    have hcs : '\n' ∉ cs := fun h => hl (List.mem_cons_of_mem c h)
    have hne : cur.length + 1 ≠ 4095 := by
      simp only [List.length_cons] at hlen; omega
    rw [fgetsAll_go _ _ _ hc hne,
      ih (c :: cur) hcs (by simp only [List.length_cons] at hlen ⊢; omega)]
    simp

/-- A piece that fills the buffer ends where the buffer ends. -/
theorem fgets_full (pre rest cur : List Char) (hl : '\n' ∉ pre) (hne : pre ≠ [])
    (hlen : cur.length + pre.length = 4095) :
    fgetsAll 4096 (pre ++ rest) cur = (cur.reverse ++ pre) :: fgetsAll 4096 rest [] := by
  induction pre generalizing cur with
  | nil => exact absurd rfl hne
  | cons c cs ih =>
    have hc : c ≠ '\n' := fun e => hl (e ▸ List.mem_cons_self c cs)
    have hcs : '\n' ∉ cs := fun h => hl (List.mem_cons_of_mem c h)
    cases cs with
    | nil =>
      have he : cur.length + 1 = 4095 := by simpa using hlen
      rw [List.cons_append, List.nil_append, fgetsAll_stop _ _ _ (Or.inr he)]
      simp
    | cons d ds =>
      have hne2 : cur.length + 1 ≠ 4095 := by
        simp only [List.length_cons] at hlen; omega
      rw [List.cons_append, fgetsAll_go _ _ _ hc hne2,
        ih (c :: cur) hcs (by simp) (by simp only [List.length_cons] at hlen ⊢; omega)]
      simp

/-- The loop body skips a piece that starts with `#`. -/
theorem confLine_comment (b : Build) (st : State) (l : List Char) :
    confLine b ('#' :: l) st = .ok st := by
  have h1 : cstr ('#' :: l) = '#' :: cstr l := by
    simp [cstr, List.takeWhile, NUL]
  have h0 : trimCh '#' = false := by decide
  have hr : trim ('#' :: cstr l) = '#' :: ((cstr l).reverse.dropWhile trimCh).reverse := by
    simp [trim, List.dropWhile, h0]
  simp [confLine, h1, hr]

/-- The loop body skips a piece of white space. -/
theorem confLine_blank (b : Build) (st : State) (l : List Char)
    (h : ∀ c ∈ l, isspace c = true) : confLine b l st = .ok st := by
  have h1 : ∀ c ∈ cstr l, trimCh c = true := by
    intro c hc
    have hmem : c ∈ l := (List.takeWhile_sublist _).subset hc
    simp [trimCh, h c hmem]
  have h2 : trim (cstr l) = [] := by
    simp [trim, List.dropWhile_eq_nil_iff.mpr h1]
  simp [confLine, h2]

theorem loadLines_skip (b : Build) (st : State) (pieces : List (List Char))
    (h : ∀ p ∈ pieces, confLine b p st = .ok st) : loadLines b pieces st = .ok st := by
  induction pieces with
  | nil => rfl
  | cons p ps ih =>
    have hp := h p (List.mem_cons_self p ps)
    have hps := ih (fun q hq => h q (List.mem_cons_of_mem p hq))
    simp [loadLines, hp, hps]

/-- The pieces `fgets` delivers for a file whose lines fit the buffer: the
lines with their newlines, then the last line if it is not empty. -/
theorem fgets_fileText (lines : List (List Char)) (last : List Char)
    (h : ∀ l ∈ last :: lines, '\n' ∉ l ∧ l.length ≤ 4094) :
    fgetsAll 4096 (fileText lines last) []
      = lines.map (fun l => l ++ ['\n']) ++ (if last.isEmpty then [] else [last]) := by
  induction lines with
  | nil =>
    have hl := h last (List.mem_cons_self _ _)
    have := fgets_last last [] hl.1 (by simpa using hl.2)
    simpa [fileText] using this
  | cons l ls ih =>
    have hl := h l (List.mem_cons_of_mem _ (List.mem_cons_self _ _))
    have hrest : ∀ l2 ∈ last :: ls, '\n' ∉ l2 ∧ l2.length ≤ 4094 := by
      intro l2 h2
      apply h
      simp only [List.mem_cons] at h2 ⊢
      tauto
    have := fgets_line l (fileText ls last) [] hl.1 (by simp only [List.length_nil]; omega)
    simp only [fileText, this, ih hrest]
    simp

/-- A comment line that overruns the buffer: what follows its first 4095
characters is read as a line of its own. -/
theorem long_comment_applies (xs : List Char) (hx : '\n' ∉ xs) (hlen : xs.length = 4094) :
    loadFromFile linuxBuild (envOf (fileText ['#' :: (xs ++ "-c evil".toList)] []) [])
        "edge.conf".toList defaultState
      = .ok (0, { defaultState with
                    conf := { defaultState.conf with community_name := bufOf 16 "evil" } }) := by
  have htext : fileText ['#' :: (xs ++ "-c evil".toList)] []
      = ('#' :: xs) ++ "-c evil\n".toList := by
    simp [fileText]
  have hsplit : fgetsAll 4096 (('#' :: xs) ++ "-c evil\n".toList) []
      = ('#' :: xs) :: fgetsAll 4096 "-c evil\n".toList [] := by
    have := fgets_full ('#' :: xs) "-c evil\n".toList []
      (by
        intro h
        rcases List.mem_cons.mp h with h | h
        · exact absurd h (by decide)
        · exact hx h)
      (by simp) (by simp [hlen])
    simpa using this
  have hrest : fgetsAll 4096 "-c evil\n".toList [] = ["-c evil\n".toList] := by decide
  have happly : confLine linuxBuild "-c evil\n".toList defaultState
      = .ok { defaultState with
                conf := { defaultState.conf with community_name := bufOf 16 "evil" } } := by
    decide
  simp only [loadFromFile, envOf, htext, hsplit, hrest, loadLines, confLine_comment, happly,
    Outcome.bind_ok]

/-- C8 (counterexample): a file made of one line that begins with `#`, 4102
characters long: `fgets` delivers its first 4095 characters, skipped as a
comment, and then the rest of the line, `-c evil`, which the loader applies;
the community identifier is no longer the one before the call. -/
theorem loadFromFile_long_comment :
    loadFromFile linuxBuild
          (envOf (fileText ['#' :: (List.replicate 4094 'x' ++ "-c evil".toList)] []) [])
          "edge.conf".toList defaultState
        = .ok (0, { defaultState with
                      conf := { defaultState.conf with community_name := bufOf 16 "evil" } })
      ∧ (⟨0, { defaultState with
                 conf := { defaultState.conf with community_name := bufOf 16 "evil" } }⟩
            : Int × State) ≠ (0, defaultState) :=
  ⟨long_comment_applies (List.replicate 4094 'x')
      (fun h => absurd (List.eq_of_mem_replicate h) (by decide))
      (List.length_replicate 4094 'x'),
    by decide⟩

/-- C8 (amended): for every file that can be opened and consists only of lines
that are white space or begin with `#`, each at most 4094 characters long
before its newline, `loadFromFile` returns 0 and the state, hence both
aggregates, is exactly the one before the call. -/
theorem loadFromFile_blank_comment (b : Build) (env : Env) (path : CStr) (st : State)
    (lines : List (List Char)) (last : List Char)
    (hopen : env.fopen path = some (fileText lines last))
    (h : ∀ l ∈ last :: lines,
      '\n' ∉ l ∧ l.length ≤ 4094 ∧ (l.all isspace = true ∨ l.head? = some '#')) :
    loadFromFile b env path st = .ok (0, st) := by
  have hpieces := fgets_fileText lines last (fun l hl => ⟨(h l hl).1, (h l hl).2.1⟩)
  have hskip : ∀ (l tail : List Char), (l.all isspace = true ∨ l.head? = some '#') →
      (∀ c ∈ tail, isspace c = true) → l ++ tail ≠ [] → confLine b (l ++ tail) st = .ok st := by
    intro l tail hl htail hne
    rcases hl with hl | hl
    · apply confLine_blank
      intro c hc
      rcases List.mem_append.mp hc with hc | hc
      · exact List.all_eq_true.mp hl c hc
      · exact htail c hc
    · cases l with
      | nil => simp at hl
      | cons c cs =>
        simp only [List.head?_cons, Option.some.injEq] at hl
        subst hl
        exact confLine_comment b st (cs ++ tail)
  have hall : ∀ p ∈ lines.map (fun l => l ++ ['\n']) ++ (if last.isEmpty then [] else [last]),
      confLine b p st = .ok st := by
    intro p hp
    rcases List.mem_append.mp hp with hp | hp
    · obtain ⟨l, hl, rfl⟩ := List.mem_map.mp hp
      exact hskip l ['\n'] (h l (List.mem_cons_of_mem _ hl)).2.2 (by decide) (by simp)
    · by_cases he : last.isEmpty = true
      · simp [he] at hp
      · simp only [he, if_false, List.mem_singleton, Bool.false_eq_true] at hp
        subst hp
        have := hskip p [] (h p (List.mem_cons_self _ _)).2.2 (by simp) (by simpa using he)
        simpa using this
  simp only [loadFromFile, hopen, hpieces, loadLines_skip b st _ hall, Outcome.bind_ok]

/-- C8 (witness): a comment, an empty line, a line of blanks and a last comment
without newline. -/
theorem loadFromFile_blank_comment_witness :
    loadFromFile linuxBuild
        (envOf (fileText ["# edge".toList, [], "  ".toList] "#end".toList) [])
        "edge.conf".toList defaultState
      = .ok (0, defaultState) :=
  loadFromFile_blank_comment linuxBuild
    (envOf (fileText ["# edge".toList, [], "  ".toList] "#end".toList) [])
    "edge.conf".toList defaultState ["# edge".toList, [], "  ".toList] "#end".toList rfl
    (by decide)

/-! ## File first, command line second -/

theorem cstr_stop (a r : List Char) (k : Nat) (ha : NUL ∉ a) :
    cstr (a ++ (List.replicate k NUL ++ NUL :: r)) = a := by
  have hall : ∀ c ∈ a, (fun c : Char => c != NUL) c = true := by
    intro c hc
    have : c ≠ NUL := fun e => ha (e ▸ hc)
    simpa using this
  cases k with
  | zero => exact takeWhile_append_stop a r NUL hall (by decide)
  | succ k =>
    rw [List.replicate_succ]
    exact takeWhile_append_stop a _ NUL hall (by decide)

/-- A field written by `copyField` reads as the value cut to the size of the
field less one. -/
theorem cstr_copyField (d : Buf) (v : CStr) (n : Nat) (hn : 0 < n) (hv : NUL ∉ v) :
    cstr (setNul (strncpy d v n) (n - 1)) = v.take (n - 1) := by
  have hlt : n - 1 < (strncpy d v n).length := by
    simp only [strncpy, List.length_append, List.length_take, List.length_replicate]
    omega
  have htake : (strncpy d v n).take (n - 1)
      = v.take (n - 1) ++ List.replicate (n - 1 - v.length) NUL := by
    unfold strncpy
    rw [List.append_assoc, List.take_append_eq_append_take, List.take_take,
      List.take_append_eq_append_take, List.take_replicate]
    have h1 : min (n - 1) n = n - 1 := by omega
    have h2 : (n - 1 - (List.take n v).length) ⊓ (n - v.length) = n - 1 - v.length := by
      simp only [List.length_take]; omega
    have h3 : (List.drop n d).take (n - 1 - (List.take n v).length
        - (List.replicate (n - v.length) NUL).length) = [] := by
      simp only [List.length_take, List.length_replicate]
      have : n - 1 - min n v.length - (n - v.length) = 0 := by omega
      rw [this]; rfl
    rw [h1, h2, h3, List.append_nil]
  unfold setNul
  rw [List.set_eq_take_append_cons_drop, if_pos hlt, htake, List.append_assoc]
  exact cstr_stop _ _ _ (fun h => hv (List.mem_of_mem_take h))

theorem setOption_keeps_community (b : Build) (k : Char) (arg : Option CStr) (st : State)
    (r : Int × State) (hk : k ≠ 'c') (h : setOption b k arg st = .ok r) :
    r.2.conf.community_name = st.conf.community_name := by
  unfold setOption at h
  split at h
  all_goals first
    | exact absurd rfl hk
    | skip
  all_goals (try simp only [Outcome.bind, atoi, copyField, help, edge_conf_add_supernode] at h)
  all_goals (repeat' (split at h))
  all_goals (cases h <;> rfl)

theorem bind_eq_ok {α β : Type} (o : Outcome α) (f : α → Outcome β) (r : β)
    (h : o.bind f = .ok r) : ∃ a, o = .ok a ∧ f a = .ok r := by
  cases o with
  | ok a => exact ⟨a, rfl, h⟩
  | exit s => cases h
  | fault => cases h

theorem loadFromCLI_keeps_community (b : Build) (rets : List GetoptRet) (st : State)
    (r : Int × State) (hc : ∀ x ∈ rets, Char.ofNat (x.val % 256).toNat ≠ 'c')
    (h : loadFromCLI b rets st = .ok r) :
    r.2.conf.community_name = st.conf.community_name := by
  induction rets generalizing st with
  | nil =>
    simp only [loadFromCLI] at h
    cases h; rfl
  | cons x xs ih =>
    have hx := hc x (List.mem_cons_self x xs)
    have hxs : ∀ y ∈ xs, Char.ofNat (y.val % 256).toNat ≠ 'c' :=
      fun y hy => hc y (List.mem_cons_of_mem x hy)
    simp only [loadFromCLI] at h
    split at h
    · cases h; rfl
    · split at h
      · cases h; rfl
      · obtain ⟨r1, h1, h2⟩ := bind_eq_ok _ _ _ h
        rw [ih r1.2 hxs h2, setOption_keeps_community b _ _ _ r1 hx h1]

/-- The results before the one of interest are consumed one by one when none
of them ends the loop. -/
theorem loadFromCLI_append (b : Build) (pre rets : List GetoptRet) (st : State)
    (r : Int × State)
    (hpre : ∀ x ∈ pre, (x.val % 256).toNat ≠ 63 ∧ (x.val % 256).toNat ≠ 255)
    (h : loadFromCLI b (pre ++ rets) st = .ok r) :
    ∃ st1, loadFromCLI b rets st1 = .ok r := by
  induction pre generalizing st with
  | nil => exact ⟨st, h⟩
  | cons x xs ih =>
    have hx := hpre x (List.mem_cons_self x xs)
    have hxs : ∀ y ∈ xs, (y.val % 256).toNat ≠ 63 ∧ (y.val % 256).toNat ≠ 255 :=
      fun y hy => hpre y (List.mem_cons_of_mem x hy)
    simp only [List.cons_append, loadFromCLI, hx.1, hx.2, if_false] at h
    obtain ⟨r1, -, h2⟩ := bind_eq_ok _ _ _ h
    exact ih r1.2 hxs h2

/-- After `-c B` and results without `c`, the community identifier reads as
`B` cut to the size of the field less one. -/
theorem loadFromCLI_community (b : Build) (post : List GetoptRet) (B : CStr) (st : State)
    (r : Int × State) (hpost : ∀ x ∈ post, Char.ofNat (x.val % 256).toNat ≠ 'c')
    (hB : NUL ∉ B) (h : loadFromCLI b (⟨99, some B⟩ :: post) st = .ok r) :
    cstr r.2.conf.community_name = B.take (b.N2N_COMMUNITY_SIZE - 1) := by
  have hc : Char.ofNat ((99 : Int) % 256).toNat = 'c' := by decide
  have h63 : ((99 : Int) % 256).toNat ≠ 63 := by decide
  have h255 : ((99 : Int) % 256).toNat ≠ 255 := by decide
  simp only [loadFromCLI, h63, h255, if_false, hc] at h
  obtain ⟨r1, h1, h2⟩ := bind_eq_ok _ _ _ h
  rw [loadFromCLI_keeps_community b post r1.2 r hpost h2]
  simp only [setOption, copyField, Outcome.bind_ok, Outcome.ok.injEq] at h1
  subst h1
  exact cstr_copyField _ B _ b.community_size_pos hB

/-- C4 (counterexample): the file holds the line `-c communityA` and the
arguments are `edge edge.conf -Z -c communityB`; `getopt_long` returns `?` for
`-Z`, the loop of `loadFromCLI` ends there, and the community identifier stays
`communityA`. -/
theorem main_load_unknown_flag_stops :
    ∃ st2, main_load linuxBuild
          (envOf "-c communityA\n".toList [⟨63, none⟩, ⟨99, some "communityB".toList⟩])
          ["edge".toList, "edge.conf".toList, "-Z".toList, "-c".toList, "communityB".toList]
          defaultState = .ok (0, st2)
      ∧ cstr st2.conf.community_name = "communityA".toList
      ∧ cstr st2.conf.community_name ≠ "communityB".toList :=
  ⟨{ defaultState with
      conf := { defaultState.conf with community_name := bufOf 16 "communityA" } },
    by decide, by decide, by decide⟩

/-- C4 (amended): when the first argument does not start with a dash and more
arguments follow, `main` runs the file loader first and the CLI loader second,
on the state the file loader returned, whatever the file holds; and if these
loaders return, and `getopt_long` returns `c` with the argument `B` after
results that are neither `?` nor -1 and before results that are not `c`, the
community identifier reads as `B` cut to the size of the field less one. -/
theorem main_load_cli_overrides (b : Build) (env : Env) (argv : List CStr) (st : State)
    (pre post : List GetoptRet) (B : CStr) (r : Int × State)
    (hargc : 2 < argv.length) (hpath : (argv.getD 1 []).headD NUL ≠ '-')
    (hcli : env.getopt_long argv = pre ++ ⟨99, some B⟩ :: post)
    (hpre : ∀ x ∈ pre, (x.val % 256).toNat ≠ 63 ∧ (x.val % 256).toNat ≠ 255)
    (hpost : ∀ x ∈ post, Char.ofNat (x.val % 256).toNat ≠ 'c')
    (hB : NUL ∉ B) (hret : main_load b env argv st = .ok r) :
    main_load b env argv st
        = (loadFromFile b env (argv.getD 1 []) st).bind
            (fun r1 => loadFromCLI b (env.getopt_long argv) r1.2)
      ∧ cstr r.2.conf.community_name = B.take (b.N2N_COMMUNITY_SIZE - 1) := by
  have hge : argv.length ≥ 2 := by omega
  have horder : main_load b env argv st
      = (loadFromFile b env (argv.getD 1 []) st).bind
          (fun r1 => loadFromCLI b (env.getopt_long argv) r1.2) := by
    simp only [main_load, hge, hpath, hargc, ne_eq, not_false_eq_true, and_self, if_true,
      gt_iff_lt]
  refine ⟨horder, ?_⟩
  rw [horder] at hret
  obtain ⟨r1, -, h2⟩ := bind_eq_ok _ _ _ hret
  rw [hcli] at h2
  obtain ⟨st1, h3⟩ := loadFromCLI_append b pre _ r1.2 r hpre h2
  exact loadFromCLI_community b post B st1 r hpost hB h3

/-- C4 (witness): the file holds `-c communityA`, the arguments are
`edge edge.conf -c communityB`. -/
theorem main_load_cli_overrides_witness :
    main_load linuxBuild (envOf "-c communityA\n".toList [⟨99, some "communityB".toList⟩])
          ["edge".toList, "edge.conf".toList, "-c".toList, "communityB".toList] defaultState
        = (loadFromFile linuxBuild
              (envOf "-c communityA\n".toList [⟨99, some "communityB".toList⟩])
              ((["edge".toList, "edge.conf".toList, "-c".toList, "communityB".toList]).getD 1 [])
              defaultState).bind
            (fun r1 => loadFromCLI linuxBuild
              ((envOf "-c communityA\n".toList [⟨99, some "communityB".toList⟩]).getopt_long
                ["edge".toList, "edge.conf".toList, "-c".toList, "communityB".toList]) r1.2)
      ∧ cstr (bufOf 16 "communityB") = "communityB".toList.take (16 - 1) :=
  main_load_cli_overrides linuxBuild
    (envOf "-c communityA\n".toList [⟨99, some "communityB".toList⟩])
    ["edge".toList, "edge.conf".toList, "-c".toList, "communityB".toList] defaultState
    [] [] "communityB".toList
    (0, { defaultState with
            optarg := some "communityB".toList
            conf := { defaultState.conf with community_name := bufOf 16 "communityB" } })
    (by decide) (by decide) rfl (by decide) (by decide) (by decide) (by decide)

/-! ## The supernode list -/

theorem setOptions_supernodes (b : Build) (vs : List CStr) (st : State)
    (h : st.conf.supernodes.length + vs.length ≤ b.N2N_EDGE_NUM_SUPERNODES) :
    setOptions b (vs.map fun v => ('l', some v)) st
      = .ok { st with conf := { st.conf with supernodes := st.conf.supernodes ++ vs } } := by
  induction vs generalizing st with
  | nil => simp [setOptions]
  | cons v vs ih =>
    have hlt : st.conf.supernodes.length < b.N2N_EDGE_NUM_SUPERNODES := by
      simp only [List.length_cons] at h; omega
    have hstep : setOption b 'l' (some v) st
        = .ok (0, { st with conf := { st.conf with supernodes := st.conf.supernodes ++ [v] } }) := by
      simp [setOption, edge_conf_add_supernode, hlt]
    have hrest := ih { st with conf := { st.conf with supernodes := st.conf.supernodes ++ [v] } }
      (by simp only [List.length_append, List.length_cons, List.length_nil] at h ⊢; omega)
    simp only [List.map_cons, setOptions, hstep, Outcome.bind_ok, hrest]
    simp

theorem setOption_supernode_full (b : Build) (v : CStr) (st : State)
    (h : b.N2N_EDGE_NUM_SUPERNODES ≤ st.conf.supernodes.length) :
    setOption b 'l' (some v) st = .exit 1 := by
  have hlt : ¬ st.conf.supernodes.length < b.N2N_EDGE_NUM_SUPERNODES := by omega
  simp [setOption, edge_conf_add_supernode, hlt]

theorem setOptions_append (b : Build) (xs ys : List (Char × Option CStr)) (s s1 : State)
    (hx : setOptions b xs s = .ok s1) :
    setOptions b (xs ++ ys) s = setOptions b ys s1 := by
  induction xs generalizing s with
  | nil => simp only [setOptions, Outcome.ok.injEq] at hx; simp [hx]
  | cons x xs ih =>
    obtain ⟨k, arg⟩ := x
    simp only [setOptions, List.cons_append] at hx ⊢
    cases hs : setOption b k arg s with
    | ok r => rw [hs] at hx; simp only [Outcome.bind_ok] at hx ⊢; exact ih r.2 hx
    | exit c => rw [hs] at hx; cases hx
    | fault => rw [hs] at hx; cases hx

/-- C11: with the supernode list a capacity-bounded ordered list whose add
fails exactly when it is full, and a list within its capacity to start with,
every sequence of `-l` options with present values that fits the capacity
returns and leaves the list with the values added at its end in the order
applied, nothing else changed (from an empty list: the values themselves,
first applied first); and a sequence with one entry more than fits ends the
process with `exit(1)` inside `setOption`. -/
theorem setOptions_supernode_capacity (b : Build) (vs : List CStr) (st : State)
    (hinv : st.conf.supernodes.length ≤ b.N2N_EDGE_NUM_SUPERNODES) :
    (st.conf.supernodes.length + vs.length ≤ b.N2N_EDGE_NUM_SUPERNODES →
        setOptions b (vs.map fun v => ('l', some v)) st
          = .ok { st with conf := { st.conf with supernodes := st.conf.supernodes ++ vs } })
      ∧ (st.conf.supernodes.length + vs.length = b.N2N_EDGE_NUM_SUPERNODES + 1 →
        setOptions b (vs.map fun v => ('l', some v)) st = .exit 1) := by
  refine ⟨setOptions_supernodes b vs st, ?_⟩
  intro h
  have hne : vs ≠ [] := by
    intro e; subst e
    simp only [List.length_nil] at h
    omega
  have hsplit := List.dropLast_append_getLast hne
  have hlen : vs.dropLast.length + 1 = vs.length := by
    rw [List.length_dropLast]
    have := List.length_pos_of_ne_nil hne
    omega
  have hall := setOptions_supernodes b vs.dropLast st (by omega)
  rw [← hsplit, List.map_append, setOptions_append b _ _ st _ hall]
  simp only [List.map_cons, List.map_nil, setOptions]
  rw [setOption_supernode_full b _ _ (by simp only [List.length_append]; omega)]
  rfl

/-- C11 (witness): capacity 2 and an empty list: the entries `a:1` and `b:2`
are stored in this order, and with `c:3` after them the process exits. -/
theorem setOptions_supernode_capacity_witness :
    setOptions linuxBuild [('l', some "a:1".toList), ('l', some "b:2".toList)] defaultState
        = .ok { defaultState with conf := { defaultState.conf with
                  supernodes := ["a:1".toList, "b:2".toList] } }
      ∧ setOptions linuxBuild
          [('l', some "a:1".toList), ('l', some "b:2".toList), ('l', some "c:3".toList)]
          defaultState = .exit 1 :=
  ⟨(setOptions_supernode_capacity linuxBuild ["a:1".toList, "b:2".toList] defaultState
      (by decide)).1 (by decide),
    (setOptions_supernode_capacity linuxBuild ["a:1".toList, "b:2".toList, "c:3".toList]
      defaultState (by decide)).2 (by decide)⟩

/-! ## Key and transform -/

theorem setOption_keeps_transform_inv (b : Build) (k : Char) (arg : Option CStr) (st : State)
    (r : Int × State) (h : setOption b k arg st = .ok r)
    (hinv : st.conf.encrypt_key.isSome = true →
      st.conf.transop_id ≠ .N2N_TRANSFORM_ID_NULL) :
    r.2.conf.encrypt_key.isSome = true → r.2.conf.transop_id ≠ .N2N_TRANSFORM_ID_NULL := by
  unfold setOption at h
  split at h
  all_goals (try simp only [Outcome.bind, atoi, copyField, help, edge_conf_add_supernode] at h)
  all_goals (repeat' (split at h))
  all_goals (cases h)
  all_goals first
    | exact hinv
    | (intro _; simp_all)

theorem setOptions_keeps_transform_inv (b : Build) (calls : List (Char × Option CStr))
    (st0 st : State) (h : setOptions b calls st0 = .ok st)
    (hinv : st0.conf.encrypt_key.isSome = true →
      st0.conf.transop_id ≠ .N2N_TRANSFORM_ID_NULL) :
    st.conf.encrypt_key.isSome = true → st.conf.transop_id ≠ .N2N_TRANSFORM_ID_NULL := by
  induction calls generalizing st0 with
  | nil =>
    simp only [setOptions, Outcome.ok.injEq] at h
    subst h; exact hinv
  | cons c cs ih =>
    obtain ⟨k, arg⟩ := c
    simp only [setOptions] at h
    cases hs : setOption b k arg st0 with
    | ok r =>
      rw [hs] at h
      exact ih r.2 h (setOption_keeps_transform_inv b k arg st0 r hs hinv)
    | exit c => rw [hs] at h; cases h
    | fault => rw [hs] at h; cases h

/-- C12: from every state with no key, so from the defaults with no key and
transform none, after every sequence of `setOption` calls that returns, a key
that is present means a transform that is not none; a `-k` with a present value on transform none returns with
transform twofish and the value as key; and a `-k` on any other transform
returns with that transform unchanged. -/
theorem setOptions_key_transform (b : Build) (calls : List (Char × Option CStr))
    (st0 st : State) (hkey : st0.conf.encrypt_key = none)
    (hrun : setOptions b calls st0 = .ok st) :
    (st.conf.encrypt_key.isSome = true → st.conf.transop_id ≠ .N2N_TRANSFORM_ID_NULL)
      ∧ (∀ (s : State) (v : CStr), s.conf.transop_id = .N2N_TRANSFORM_ID_NULL →
          ∃ s1, setOption b 'k' (some v) s = .ok (0, s1)
            ∧ s1.conf.transop_id = .N2N_TRANSFORM_ID_TWOFISH
            ∧ s1.conf.encrypt_key = some v)
      ∧ (∀ (s : State) (v : CStr), s.conf.transop_id ≠ .N2N_TRANSFORM_ID_NULL →
          ∃ s1, setOption b 'k' (some v) s = .ok (0, s1)
            ∧ s1.conf.transop_id = s.conf.transop_id
            ∧ s1.conf.encrypt_key = some v) := by
  refine ⟨setOptions_keeps_transform_inv b calls st0 st hrun (by simp [hkey]), ?_, ?_⟩
  · intro s v hs
    exact ⟨_, by simp only [setOption]; rfl, by simp [hs], rfl⟩
  · intro s v hs
    exact ⟨_, by simp only [setOption]; rfl, by simp [hs], rfl⟩

/-- C12 (witness): the calls `-k secret`, `-A`, `-k other` from the sample
state end with the key `other` and the transform AES-CBC. -/
theorem setOptions_key_transform_witness :
    setOptions linuxBuild [('k', some "secret".toList), ('A', none), ('k', some "other".toList)]
        defaultState
        = .ok { defaultState with conf := { defaultState.conf with
                  encrypt_key := some "other".toList
                  transop_id := .N2N_TRANSFORM_ID_AESCBC } }
      ∧ ((some "other".toList).isSome = true →
          n2n_transform_t.N2N_TRANSFORM_ID_AESCBC ≠ .N2N_TRANSFORM_ID_NULL) :=
  ⟨by decide,
    (setOptions_key_transform linuxBuild
      [('k', some "secret".toList), ('A', none), ('k', some "other".toList)]
      defaultState
      { defaultState with conf := { defaultState.conf with
          encrypt_key := some "other".toList
          transop_id := .N2N_TRANSFORM_ID_AESCBC } }
      rfl (by decide)).1⟩

/-! ## The termination handler -/

/-- C14: with `term_handler` a step on (`called`, `keep_on_running`): from the
state where `called` is 0 the first delivery returns with `called` set and
the run flag cleared, whatever the flag was; with `called` set a delivery
ends the process with `_exit(0)`, whatever the flag is; so of deliveries in a
row, with the flag rewritten at will before each, one returns and two or more
end the process. -/
theorem term_handler_steps :
    (∀ flag, term_handler { called := 0, keep_on_running := flag }
        = .ok { called := 1, keep_on_running := 0 })
      ∧ (∀ called flag, called ≠ 0 →
          term_handler { called := called, keep_on_running := flag } = .exit 0)
      ∧ (∀ f0 f1, deliveries [f1] { called := 0, keep_on_running := f0 }
          = .ok { called := 1, keep_on_running := 0 })
      ∧ (∀ f0 f1 f2 rest, deliveries (f1 :: f2 :: rest) { called := 0, keep_on_running := f0 }
          = .exit 0) := by
  refine ⟨fun _ => rfl, ?_, fun _ _ => rfl, fun _ _ _ _ => rfl⟩
  intro called flag h
  simp [term_handler, h]

/-! ## Unknown flags on the command line -/

/-- C17 (counterexample): for the arguments `edge -Z -r`, `getopt_long` returns
`?` for `-Z` and the loop of `loadFromCLI` ends: the recognized option `-r`
that follows is not applied, routing stays off, whereas `-r` alone turns it
on. -/
theorem loadFromCLI_stops_at_unknown_flag :
    loadFromCLI linuxBuild [⟨63, none⟩, ⟨114, none⟩] defaultState = .ok (0, defaultState)
      ∧ defaultState.conf.allow_routing = 0
      ∧ loadFromCLI linuxBuild [⟨114, none⟩] defaultState
        = .ok (0, { defaultState with conf := { defaultState.conf with allow_routing := 1 } }) := by
  decide

/-- C17 (amended): a flag that `getopt_long` accepts but `setOption` has no
`case` for is ignored, the loader going on with the results that follow on
the same aggregates; a flag that `getopt_long` itself rejects, so that it
returns `?`, ends the loader with nothing that follows applied. -/
theorem loadFromCLI_unknown_flag (b : Build) (x : GetoptRet) (rest : List GetoptRet)
    (st : State) :
    ((x.val % 256).toNat ≠ 63 → (x.val % 256).toNat ≠ 255 →
        recognized b (Char.ofNat (x.val % 256).toNat) = false →
        loadFromCLI b (x :: rest) st = loadFromCLI b rest { st with optarg := x.optarg })
      ∧ ((x.val % 256).toNat = 63 →
        loadFromCLI b (x :: rest) st = .ok (0, { st with optarg := x.optarg })) := by
  constructor
  · intro h1 h2 h3
    simp only [loadFromCLI, h1, h2, if_false, setOption_default b _ _ _ h3, Outcome.bind_ok]
  · intro h
    simp only [loadFromCLI, h, if_true]

/-- C17 (witness): `-b -r` applies `-r`; `-Z -r` does not. -/
theorem loadFromCLI_unknown_flag_witness :
    loadFromCLI linuxBuild (⟨98, none⟩ :: [⟨114, none⟩]) defaultState
        = loadFromCLI linuxBuild [⟨114, none⟩] { defaultState with optarg := none }
      ∧ loadFromCLI linuxBuild (⟨63, none⟩ :: [⟨114, none⟩]) defaultState
        = .ok (0, { defaultState with optarg := none }) :=
  ⟨(loadFromCLI_unknown_flag linuxBuild ⟨98, none⟩ [⟨114, none⟩] defaultState).1
      (by decide) (by decide) (by decide),
    (loadFromCLI_unknown_flag linuxBuild ⟨63, none⟩ [⟨114, none⟩] defaultState).2 (by decide)⟩

/-! ## `trim` against its description -/

theorem dropWhile_eq_drop {p : Char → Bool} (l : List Char) :
    l.dropWhile p = l.drop (l.takeWhile p).length := by
  induction l with
  | nil => rfl
  | cons x xs ih =>
    by_cases hx : p x = true
    · simp [List.dropWhile, List.takeWhile, hx, ih]
    · simp [List.dropWhile, List.takeWhile, hx]

theorem takeWhile_length_le {p : Char → Bool} (l : List Char) :
    (l.takeWhile p).length ≤ l.length :=
  (List.takeWhile_sublist p).length_le

theorem dropWhile_head_false {p : Char → Bool} (l : List Char) (c : Char) (r : List Char)
    (h : l.dropWhile p = c :: r) : p c = false := by
  have := List.head?_dropWhile_not p l
  rw [h] at this
  simpa using this

theorem takeWhile_append_inside {p : Char → Bool} (xs ys : List Char) (x : Char)
    (hx : x ∈ xs) (hp : p x = false) : (xs ++ ys).takeWhile p = xs.takeWhile p := by
  induction xs with
  | nil => cases hx
  | cons a as ih =>
    by_cases ha : p a = true
    · rcases List.mem_cons.mp hx with e | hmem
      · subst e; rw [hp] at ha; cases ha
      · simp [List.takeWhile, ha, ih hmem]
    · simp [List.takeWhile, ha]

theorem takeWhile_snoc_stop {p : Char → Bool} (xs : List Char) (c : Char) (hp : p c = false) :
    ((xs ++ [c]).takeWhile p).length = (xs.takeWhile p).length := by
  rw [List.takeWhile_append]
  split
  · next h =>
    simp only [List.takeWhile, hp, List.append_nil]
    exact h.symm
  · rfl

/-- The end of `trim`: dropping the trailing characters to remove is keeping
what is before them. -/
theorem rdrop_eq_take (rest : List Char) :
    (rest.reverse.dropWhile trimCh).reverse
      = rest.take (rest.length - (rest.reverse.takeWhile trimCh).length) := by
  rw [dropWhile_eq_drop, List.reverse_drop, List.reverse_reverse, List.length_reverse]

theorem trim_eq_trimSpec (s : CStr) : trim s = trimSpec s := by
  have hs := List.takeWhile_append_dropWhile trimCh s
  cases hd : s.dropWhile trimCh with
  | nil =>
    have hall : s.takeWhile trimCh = s := by rw [hd, List.append_nil] at hs; exact hs
    have hdrop : s.drop (s.takeWhile trimCh).length = [] := by
      rw [hall]; simp
    simp only [trim, hd, trimSpec, hdrop, List.take_nil]
  | cons c rest =>
    have hc : trimCh c = false := dropWhile_head_false s c rest hd
    have hpre : s.drop (s.takeWhile trimCh).length = c :: rest := by
      rw [← dropWhile_eq_drop, hd]
    have hlen : s.length = (s.takeWhile trimCh).length + (rest.length + 1) := by
      conv_lhs => rw [← hs, hd]
      simp
    have hsuf : (s.reverse.takeWhile trimCh).length
        = (rest.reverse.takeWhile trimCh).length := by
      have e : s.reverse = (rest.reverse ++ [c]) ++ (s.takeWhile trimCh).reverse := by
        conv_lhs => rw [← hs, hd]
        simp
      rw [e, takeWhile_append_inside _ _ c (by simp) hc, takeWhile_snoc_stop _ _ hc]
    have ht : (rest.reverse.takeWhile trimCh).length ≤ rest.length := by
      have := takeWhile_length_le (p := trimCh) rest.reverse
      simpa using this
    have hn : s.length - (s.takeWhile trimCh).length - (rest.reverse.takeWhile trimCh).length
        = (rest.length - (rest.reverse.takeWhile trimCh).length) + 1 := by omega
    simp only [trim, hd, trimSpec, hpre, hsuf, hn, List.take_succ_cons, rdrop_eq_take]

theorem trim_head (s : CStr) (c : Char) (h : (trim s).head? = some c) : trimCh c = false := by
  cases hd : s.dropWhile trimCh with
  | nil => simp [trim, hd] at h
  | cons x rest =>
    simp only [trim, hd, List.head?_cons, Option.some.injEq] at h
    subst h
    exact dropWhile_head_false s x rest hd

theorem trim_last (s : CStr) (c : Char) (h : (trim s).getLast? = some c) :
    trimCh c = false := by
  cases hd : s.dropWhile trimCh with
  | nil => simp [trim, hd] at h
  | cons x rest =>
    have hx : trimCh x = false := dropWhile_head_false s x rest hd
    simp only [trim, hd] at h
    cases hr : rest.reverse.dropWhile trimCh with
    | nil =>
      simp only [hr, List.reverse_nil, List.getLast?_singleton, Option.some.injEq] at h
      subst h; exact hx
    | cons y ys =>
      have hy : trimCh y = false := dropWhile_head_false _ y ys hr
      rw [hr] at h
      have : (x :: (y :: ys).reverse).getLast? = some y := by
        simp [List.getLast?_cons]
      rw [this] at h
      simp only [Option.some.injEq] at h
      subst h; exact hy

theorem trim_nil_or_clean (s : CStr) : trim s = [] ∨ clean (trim s) = true := by
  cases ht : trim s with
  | nil => exact Or.inl rfl
  | cons x xs =>
    right
    have h1 : trimCh x = false := trim_head s x (by rw [ht]; rfl)
    cases hl : (x :: xs).getLast? with
    | none => simp at hl
    | some l =>
      have h2 : trimCh l = false := trim_last s l (by rw [ht]; exact hl)
      simp [clean, hl, h1, h2]

/-- C20: for every string, `trim` returns the string with its longest prefix
and its longest suffix of white space and quotes removed, the empty string
when the string has nothing else; what it returns neither starts nor ends
with such a character, and trimming it again changes nothing. -/
theorem trim_correct (s : CStr) :
    trim s = trimSpec s
      ∧ ((∀ c ∈ s, trimCh c = true) → trim s = [])
      ∧ (∀ c, (trim s).head? = some c → trimCh c = false)
      ∧ (∀ c, (trim s).getLast? = some c → trimCh c = false)
      ∧ trim (trim s) = trim s := by
  refine ⟨trim_eq_trimSpec s, ?_, trim_head s, trim_last s, ?_⟩
  · intro h
    simp [trim, List.dropWhile_eq_nil_iff.mpr h]
  · rcases trim_nil_or_clean s with h | h
    · rw [h]; rfl
    · exact trim_clean _ h

/-! ## Bounded strings -/

theorem take_strncpy_cleared (d : Buf) (v : CStr) (k n : Nat) (hk : k ≤ n) :
    (strncpy (memset0 d n) v k).take n
      = v.take k ++ List.replicate (n - min k v.length) NUL := by
  unfold strncpy memset0
  have hA : (v.take k ++ List.replicate (k - v.length) NUL).length = k := by
    simp only [List.length_append, List.length_take, List.length_replicate]; omega
  rw [List.take_append_eq_append_take, List.take_of_length_le (by omega), hA,
    List.drop_append_eq_append_drop, List.drop_replicate, List.take_append_eq_append_take,
    List.take_replicate]
  simp only [List.length_replicate, List.length_drop]
  have h0 : n - k - (n - k) = 0 := by omega
  have h1 : min (n - k) (n - k) = n - k := by omega
  rw [h0, h1, List.take_zero, List.append_nil, List.append_assoc,
    List.append_replicate_replicate]
  congr 2
  omega

theorem take_setNul (x : Buf) (n : Nat) (hn : 0 < n) (hlen : n ≤ x.length) :
    (setNul x (n - 1)).take n = x.take (n - 1) ++ [NUL] := by
  unfold setNul
  rw [List.set_eq_take_append_cons_drop, if_pos (by omega), List.take_append_eq_append_take,
    List.take_take]
  have h1 : min n (n - 1) = n - 1 := by omega
  have h2 : n - (x.take (n - 1)).length = 1 := by
    simp only [List.length_take]; omega
  rw [h1, h2]
  rfl

theorem take_strncpy (d : Buf) (v : CStr) (n : Nat) (hn : 0 < n) :
    (strncpy d v n).take (n - 1) = v.take (n - 1) ++ List.replicate (n - 1 - v.length) NUL := by
  unfold strncpy
  rw [List.append_assoc, List.take_append_eq_append_take, List.take_take,
    List.take_append_eq_append_take, List.take_replicate]
  have h1 : min (n - 1) n = n - 1 := by omega
  have h2 : (n - 1 - (List.take n v).length) ⊓ (n - v.length) = n - 1 - v.length := by
    simp only [List.length_take]; omega
  have h3 : (List.drop n d).take (n - 1 - (List.take n v).length
      - (List.replicate (n - v.length) NUL).length) = [] := by
    simp only [List.length_take, List.length_replicate]
    have : n - 1 - min n v.length - (n - v.length) = 0 := by omega
    rw [this]; rfl
  rw [h1, h2, h3, List.append_nil]

/-- The field after `copyField`: its `size` bytes are the text cut and padded. -/
theorem take_copyField (d : Buf) (v : CStr) (n : Nat) (hn : 0 < n) :
    (setNul (strncpy d v n) (n - 1)).take n = padded n v := by
  have hlen : n ≤ (strncpy d v n).length := by
    simp only [strncpy, List.length_append, List.length_take, List.length_replicate]
    omega
  rw [take_setNul _ n hn hlen, take_strncpy d v n hn, List.append_assoc]
  unfold padded
  have : [NUL] = List.replicate 1 NUL := rfl
  rw [this, List.append_replicate_replicate]
  congr 2
  omega

theorem take_cleared_padded (d : Buf) (v : CStr) (n : Nat) (hn : 0 < n) :
    (strncpy (memset0 d n) v (n - 1)).take n = padded n v := by
  rw [take_strncpy_cleared d v (n - 1) n (by omega)]
  unfold padded
  congr 2
  omega

/-- A field whose bytes are a padded text reads as the text cut to the size
less one. -/
theorem cstr_of_padded (field : Buf) (n : Nat) (w : CStr) (hn : 0 < n)
    (h : field.take n = padded n w) (hw : NUL ∉ w) :
    cstr field = w.take (n - 1) ∧ (cstr field).length ≤ n - 1 := by
  have hsplit : field = w.take (n - 1)
      ++ (List.replicate (n - min w.length (n - 1) - 1) NUL ++ NUL :: field.drop n) := by
    conv_lhs => rw [← List.take_append_drop n field, h]
    unfold padded
    have e : n - min w.length (n - 1) = (n - min w.length (n - 1) - 1) + 1 := by omega
    conv_lhs => rw [e, List.replicate_succ']
    simp
  have hc : cstr field = w.take (n - 1) := by
    rw [hsplit]
    exact cstr_stop _ _ _ (fun hm => hw (List.mem_of_mem_take hm))
  exact ⟨hc, by rw [hc, List.length_take]; omega⟩

theorem take_copyField_cleared (d : Buf) (v : CStr) :
    (setNul (strncpy (memset0 d 16) v 15) 15).take 16 = padded 16 v := by
  unfold setNul
  rw [List.set_take, take_cleared_padded d v 16 (by decide)]
  exact setNul_pad _ _ 15 (by simp only [List.length_take]; omega)

theorem take_mode_padded (m : Buf) (mode addr : CStr) :
    (strncpy (memset0 m 16) (mode ++ ':' :: addr) (min mode.length 15)).take 16
      = padded 16 mode := by
  rw [take_strncpy_cleared m _ (min mode.length 15) 16 (by omega),
    List.take_append_of_le_length (Nat.min_le_left _ _)]
  unfold padded
  have h1 : mode.take (min mode.length 15) = mode.take (16 - 1) := by
    rw [List.take_eq_take]; omega
  have h2 : 16 - min (min mode.length 15) (mode ++ ':' :: addr).length
      = 16 - min mode.length (16 - 1) := by
    simp only [List.length_append, List.length_cons]; omega
  rw [h1, h2]

theorem setOption_keeps_strings (b : Build) (k : Char) (arg : Option CStr) (st : State)
    (r : Int × State) (hk : k ∉ ['a', 'c', 'm', 's', 'd'])
    (h : setOption b k arg st = .ok r) :
    r.2.ec.ip_addr = st.ec.ip_addr ∧ r.2.ec.ip_mode = st.ec.ip_mode
      ∧ r.2.ec.netmask = st.ec.netmask ∧ r.2.ec.device_mac = st.ec.device_mac
      ∧ r.2.ec.tuntap_dev_name = st.ec.tuntap_dev_name
      ∧ r.2.conf.community_name = st.conf.community_name := by
  simp only [List.mem_cons, List.mem_singleton, List.not_mem_nil, or_false, not_or] at hk
  unfold setOption at h
  split at h
  all_goals first
    | exact absurd rfl hk.1
    | exact absurd rfl hk.2.1
    | exact absurd rfl hk.2.2.1
    | exact absurd rfl hk.2.2.2.1
    | exact absurd rfl hk.2.2.2.2
    | skip
  all_goals (try simp only [Outcome.bind, atoi, copyField, help, edge_conf_add_supernode] at h)
  all_goals (repeat' (split at h))
  all_goals (cases h <;> exact ⟨rfl, rfl, rfl, rfl, rfl, rfl⟩)

/-- C13: for every present argument text `v`, of any length, in every build
and state: `-c`, `-m`, `-s` and, where it is compiled, `-d` return 0 and leave
in the `size` bytes of their field the first `size - 1` bytes of `v` followed
by NULs; `-a` returns 0 and leaves the address field so for `v`, the mode
untouched, when `v` has no colon, and the address and mode fields so for the
text after and before the first colon otherwise; such a field reads as that
text cut to `size - 1` bytes; and any other code that returns leaves all six
fields as they were. -/
theorem setOption_bounded_strings (b : Build) (st : State) (v : CStr) :
    (∃ st1, setOption b 'c' (some v) st = .ok (0, st1)
        ∧ st1.conf.community_name.take b.N2N_COMMUNITY_SIZE = padded b.N2N_COMMUNITY_SIZE v)
      ∧ (∃ st1, setOption b 'm' (some v) st = .ok (0, st1)
        ∧ st1.ec.device_mac.take N2N_MACNAMSIZ = padded N2N_MACNAMSIZ v)
      ∧ (∃ st1, setOption b 's' (some v) st = .ok (0, st1)
        ∧ st1.ec.netmask.take N2N_NETMASK_STR_SIZE = padded N2N_NETMASK_STR_SIZE v)
      ∧ (b.N2N_CAN_NAME_IFACE = true → ∃ st1, setOption b 'd' (some v) st = .ok (0, st1)
        ∧ st1.ec.tuntap_dev_name.take b.N2N_IFNAMSIZ = padded b.N2N_IFNAMSIZ v)
      ∧ (':' ∉ v → ∃ st1, setOption b 'a' (some v) st = .ok (0, st1)
        ∧ st1.ec.ip_addr.take N2N_NETMASK_STR_SIZE = padded N2N_NETMASK_STR_SIZE v
        ∧ st1.ec.ip_mode = st.ec.ip_mode)
      ∧ (∀ mode addr : CStr, v = mode ++ ':' :: addr → ':' ∉ mode →
          ∃ st1, setOption b 'a' (some v) st = .ok (0, st1)
            ∧ st1.ec.ip_addr.take N2N_NETMASK_STR_SIZE = padded N2N_NETMASK_STR_SIZE addr
            ∧ st1.ec.ip_mode.take N2N_IF_MODE_SIZE = padded N2N_IF_MODE_SIZE mode)
      ∧ (∀ (field : Buf) (size : Nat) (w : CStr), 0 < size → field.take size = padded size w →
          NUL ∉ w → cstr field = w.take (size - 1) ∧ (cstr field).length ≤ size - 1)
      ∧ (∀ (k : Char) (arg : Option CStr) (r : Int × State), k ∉ ['a', 'c', 'm', 's', 'd'] →
          setOption b k arg st = .ok r →
          r.2.ec.ip_addr = st.ec.ip_addr ∧ r.2.ec.ip_mode = st.ec.ip_mode
            ∧ r.2.ec.netmask = st.ec.netmask ∧ r.2.ec.device_mac = st.ec.device_mac
            ∧ r.2.ec.tuntap_dev_name = st.ec.tuntap_dev_name
            ∧ r.2.conf.community_name = st.conf.community_name) := by
  refine ⟨?_, ?_, ?_, ?_, ?_, ?_, fun field size w hs h hw => cstr_of_padded field size w hs h hw,
    fun k arg r hk h => setOption_keeps_strings b k arg st r hk h⟩
  · exact ⟨_, by simp only [setOption, copyField, Outcome.bind_ok]; rfl,
      take_copyField _ v _ b.community_size_pos⟩
  · exact ⟨_, by simp only [setOption, copyField, Outcome.bind_ok]; rfl,
      take_copyField _ v N2N_MACNAMSIZ (by decide)⟩
  · exact ⟨_, by simp only [setOption, copyField, Outcome.bind_ok]; rfl,
      take_copyField _ v N2N_NETMASK_STR_SIZE (by decide)⟩
  · intro hd
    exact ⟨_, by simp only [setOption, copyField, hd, if_true, Outcome.bind_ok]; rfl,
      take_copyField _ v _ b.ifnamsiz_pos⟩
  · intro hv
    refine ⟨_, setOption_a_plain b st v (dropWhile_no_colon v hv), ?_, rfl⟩
    show (setNul (strncpy (memset0 st.ec.ip_addr 16) v 15) 15).take 16 = padded 16 v
    exact take_copyField_cleared _ v
  · intro mode addr hv hmode
    subst hv
    refine ⟨_, setOption_a_colon b st _ addr ':' (span_colon mode addr hmode).2, ?_, ?_⟩
    · exact take_cleared_padded st.ec.ip_addr addr 16 (by decide)
    · show (strncpy (memset0 st.ec.ip_mode 16) (mode ++ ':' :: addr)
          (min ((mode ++ ':' :: addr).takeWhile (fun c => c != ':')).length 15)).take 16
        = padded 16 mode
      rw [(span_colon mode addr hmode).1]
      exact take_mode_padded _ mode addr

/-- C13 (witness): a community name of 20 characters is stored as its first 15
characters and a NUL, and the call returns 0. -/
theorem setOption_bounded_strings_witness :
    ∃ st1, setOption linuxBuild 'c' (some "abcdefghijklmnopqrst".toList) defaultState
        = .ok (0, st1)
      ∧ st1.conf.community_name.take linuxBuild.N2N_COMMUNITY_SIZE
        = padded linuxBuild.N2N_COMMUNITY_SIZE "abcdefghijklmnopqrst".toList :=
  (setOption_bounded_strings linuxBuild defaultState "abcdefghijklmnopqrst".toList).1

/-! ## The type-of-service value -/

theorem hexDigit_facts (c : Char) (h : isHexDigit c = true) :
    digitVal 16 c = some (hexDigitValue c) ∧ isspace c = false
      ∧ c ≠ '-' ∧ c ≠ '+' ∧ c ≠ 'x' ∧ c ≠ 'X' := by
  simp only [isHexDigit, isDecDigit, Bool.or_eq_true, List.mem_cons, List.mem_singleton,
    List.not_mem_nil, or_false, decide_eq_true_eq] at h
  rcases h with h | h
  · rcases h with rfl | rfl | rfl | rfl | rfl | rfl | rfl | rfl | rfl | rfl <;> decide
  · rcases h with rfl | rfl | rfl | rfl | rfl | rfl | rfl | rfl | rfl | rfl | rfl | rfl <;>
      decide

theorem decDigit_facts (c : Char) (h : isDecDigit c = true) :
    digitVal 10 c = some (hexDigitValue c) ∧ isspace c = false
      ∧ c ≠ '-' ∧ c ≠ '+' ∧ c ≠ 'x' := by
  simp only [isDecDigit, List.mem_cons, List.mem_singleton, List.not_mem_nil, or_false,
    decide_eq_true_eq] at h
  rcases h with rfl | rfl | rfl | rfl | rfl | rfl | rfl | rfl | rfl | rfl <;> decide

theorem digitsVal_hex (h : List Char) (acc : Nat) (hh : ∀ c ∈ h, isHexDigit c = true) :
    digitsVal 16 h acc = h.foldl (fun a c => 16 * a + hexDigitValue c) acc := by
  induction h generalizing acc with
  | nil => rfl
  | cons c cs ih =>
    have hc := (hexDigit_facts c (hh c (List.mem_cons_self c cs))).1
    have hcs : ∀ x ∈ cs, isHexDigit x = true := fun x hx => hh x (List.mem_cons_of_mem c hx)
    simp only [digitsVal, hc, List.foldl_cons, ih _ hcs]
    congr 1
    omega

theorem digitsVal_dec (d rest : List Char) (acc : Nat) (hd : ∀ c ∈ d, isDecDigit c = true)
    (hrest : ∀ c, rest.head? = some c → digitVal 10 c = none) :
    digitsVal 10 (d ++ rest) acc = d.foldl (fun a c => 10 * a + hexDigitValue c) acc := by
  induction d generalizing acc with
  | nil =>
    cases rest with
    | nil => rfl
    | cons r rs =>
      have := hrest r rfl
      simp [digitsVal, this]
  | cons c cs ih =>
    have hc := (decDigit_facts c (hd c (List.mem_cons_self c cs))).1
    have hcs : ∀ x ∈ cs, isDecDigit x = true := fun x hx => hd x (List.mem_cons_of_mem c hx)
    have hstep : digitsVal 10 (c :: (cs ++ rest)) acc
        = digitsVal 10 (cs ++ rest) (acc * 10 + hexDigitValue c) := by
      simp only [digitsVal, hc]
    rw [List.cons_append, hstep, ih _ hcs, List.foldl_cons]
    congr 1
    omega

theorem strtol_clamp (v : Nat) (hfit : (v : Int) ≤ LONG_MAX) :
    (if (v : Int) > LONG_MAX then LONG_MAX else if (v : Int) < LONG_MIN then LONG_MIN else (v : Int))
      = v := by
  have h1 : ¬ ((v : Int) > LONG_MAX) := by omega
  have h2 : ¬ ((v : Int) < LONG_MIN) := by
    have : LONG_MIN < 0 := by decide
    omega
  simp only [h1, h2, if_false]

/-- The value `strtol` returns for a text with no white space, sign or `0x`
to skip and digits that spell a number in the range of `long`. -/
theorem strtol_plain (s : CStr) (base : Nat) (hsp : s.dropWhile isspace = s)
    (hminus : s.head? ≠ some '-') (hplus : s.head? ≠ some '+')
    (hskip : ∀ z x h rest, s = z :: x :: h :: rest →
      (base == 16 && z == '0' && (x == 'x' || x == 'X') && (digitVal 16 h).isSome) = false)
    (hfit : (digitsVal base s 0 : Int) ≤ LONG_MAX) :
    strtol s base = digitsVal base s 0 := by
  have hm : (s.head? == some '-') = false := by simpa using hminus
  have hp : (s.head? == some '+') = false := by simpa using hplus
  unfold strtol
  simp only [hsp, hm, hp, Bool.or_self, Bool.false_eq_true, if_false]
  have key : ∀ s3 : CStr, s3 = s →
      (if (digitsVal base s3 0 : Int) > LONG_MAX then LONG_MAX
        else if (digitsVal base s3 0 : Int) < LONG_MIN then LONG_MIN
        else (digitsVal base s3 0 : Int)) = digitsVal base s 0 := by
    intro s3 h3
    subst h3
    exact strtol_clamp _ hfit
  apply key
  split
  · next z x h rest =>
    simp only [hskip z x h rest rfl, Bool.false_eq_true, if_false]
  · rfl

theorem strtol_hex (h : List Char) (hne : h ≠ []) (hh : ∀ c ∈ h, isHexDigit c = true)
    (hfit : (hexValue h : Int) ≤ LONG_MAX) : strtol h 16 = hexValue h := by
  cases h with
  | nil => exact absurd rfl hne
  | cons c cs =>
    have hc := hexDigit_facts c (hh c (List.mem_cons_self c cs))
    have hval : digitsVal 16 (c :: cs) 0 = hexValue (c :: cs) := digitsVal_hex _ 0 hh
    rw [strtol_plain (c :: cs) 16 (by simp [List.dropWhile, hc.2.1])
      (by simp [hc.2.2.1]) (by simp [hc.2.2.2.1]) ?_ (by rw [hval]; exact hfit), hval]
    intro z x h' rest heq
    have hx : x ∈ c :: cs := by
      rw [heq]; simp
    have hxf := hexDigit_facts x (hh x hx)
    simp [hxf.2.2.2.2.1, hxf.2.2.2.2.2]

/-- The value `atoi` computes for decimal digits followed by something that
is no digit, when the number is in the range of `int`. -/
theorem strtol_dec (d rest : List Char) (hd : ∀ c ∈ d, isDecDigit c = true)
    (hrest : ∀ c, rest.head? = some c → digitVal 10 c = none)
    (hempty : d = [] → ∀ c, rest.head? = some c → isspace c = false ∧ c ≠ '-' ∧ c ≠ '+')
    (hfit : decValue d ≤ 2147483647) :
    toInt32 (strtol (d ++ rest) 10) = decValue d := by
  have hval : digitsVal 10 (d ++ rest) 0 = decValue d := digitsVal_dec d rest 0 hd hrest
  have hhead : ∀ c, (d ++ rest).head? = some c → isspace c = false ∧ c ≠ '-' ∧ c ≠ '+' := by
    intro c hc
    cases d with
    | nil => exact hempty rfl c hc
    | cons x xs =>
      simp only [List.cons_append, List.head?_cons, Option.some.injEq] at hc
      subst hc
      have := decDigit_facts x (hd x (List.mem_cons_self x xs))
      exact ⟨this.2.1, this.2.2.1, this.2.2.2.1⟩
  have hlong : (digitsVal 10 (d ++ rest) 0 : Int) ≤ LONG_MAX := by
    rw [hval]
    have : LONG_MAX = 9223372036854775807 := rfl
    omega
  rw [strtol_plain (d ++ rest) 10 ?_ ?_ ?_ ?_ hlong, hval]
  · unfold toInt32; omega
  · cases hs : d ++ rest with
    | nil => rfl
    | cons c cs =>
      have := (hhead c (by rw [hs]; rfl)).1
      simp [List.dropWhile, this]
  · intro h; exact (hhead _ h).2.1 rfl
  · intro h; exact (hhead _ h).2.2 rfl
  · intro z x h rest _
    simp

theorem digitVal_ten_none (c : Char) (h : isDecDigit c = false) : digitVal 10 c = none := by
  by_cases hr : 48 ≤ c.toNat ∧ c.toNat ≤ 57
  · exfalso
    have hc : c = Char.ofNat c.toNat := (Char.ofNat_toNat c).symm
    obtain ⟨h1, h2⟩ := hr
    generalize c.toNat = n at hc h1 h2
    interval_cases n <;> (subst hc; revert h; decide)
  · unfold digitVal
    simp only [hr, if_false]
    split
    · next d hd =>
      split at hd
      · simp only [Option.some.injEq] at hd
        have : ¬ d < 10 := by omega
        simp [this]
      · split at hd
        · simp only [Option.some.injEq] at hd
          have : ¬ d < 10 := by omega
          simp [this]
        · cases hd
    · rfl

theorem setOption_T_dec (b : Build) (st : State) (v : CStr) (hL : b.LINUX = true)
    (hv : v.take 2 ≠ ['0', 'x']) :
    setOption b 'T' (some v) st
      = .ok (0, { st with conf := { st.conf with
          tos := b.tos_of_long (toInt32 (strtol v 10)) } }) := by
  simp only [setOption, hL, if_true]
  split
  all_goals first
    | (next h => cases h)
    | (next hex h =>
        simp only [Option.some.injEq] at h
        subst h
        exact absurd rfl hv)
    | (next w _ h =>
        simp only [Option.some.injEq] at h
        subst h
        rfl)

/-- C19 (counterexample): with an 8-bit `tos` field `-T 0x100` stores 0, not
256; and even with a `tos` field as wide as `long`, `-T 0x10000000000000000`
stores `LONG_MAX`, where `strtol` saturates, not 18446744073709551616. -/
theorem setOption_tos_out_of_range :
    setOption linuxBuild 'T' (some "0x100".toList) defaultState
        = .ok (0, { defaultState with conf := { defaultState.conf with tos := 0 } })
      ∧ hexValue "100".toList = 256
      ∧ setOption wideBuild 'T' (some "0x10000000000000000".toList) defaultState
        = .ok (0, { defaultState with conf := { defaultState.conf with
                      tos := 9223372036854775807 } })
      ∧ hexValue "10000000000000000".toList = 18446744073709551616 := by
  decide

/-- C19 (amended): where `-T` is compiled, for every non-empty string `h` of
hexadecimal digits whose value is in the range of `long`, `-T` with `0x`
followed by `h` stores the base-16 value of `h`, converted to the type of the
field; and for every argument that does not start with `0x` and is made of
decimal digits spelling a number in the range of `int`, followed by nothing
or by text that starts with no digit, it stores that number, converted
likewise: 0 when there is no digit and the text starts with neither white
space nor a sign. -/
theorem setOption_tos (b : Build) (st : State) (hL : b.LINUX = true) :
    (∀ h : List Char, h ≠ [] → (∀ c ∈ h, isHexDigit c = true) →
        (hexValue h : Int) ≤ LONG_MAX →
        setOption b 'T' (some ('0' :: 'x' :: h)) st
          = .ok (0, { st with conf := { st.conf with tos := b.tos_of_long (hexValue h) } }))
      ∧ (∀ d rest : List Char, (∀ c ∈ d, isDecDigit c = true) →
        (∀ c, rest.head? = some c → isDecDigit c = false) →
        (d = [] → ∀ c, rest.head? = some c → isspace c = false ∧ c ≠ '-' ∧ c ≠ '+') →
        decValue d ≤ 2147483647 → (d ++ rest).take 2 ≠ ['0', 'x'] →
        setOption b 'T' (some (d ++ rest)) st
          = .ok (0, { st with conf := { st.conf with tos := b.tos_of_long (decValue d) } })) := by
  constructor
  · intro h hne hh hfit
    simp only [setOption, hL, if_true, strtol_hex h hne hh hfit]
  · intro d rest hd hrest hempty hfit hx
    rw [setOption_T_dec b st _ hL hx,
      strtol_dec d rest hd (fun c hc => digitVal_ten_none c (hrest c hc)) hempty hfit]

/-- C19 (witness): `-T 0x48` stores 72, `-T 16` stores 16 and `-T high` stores
0 in an 8-bit field. -/
theorem setOption_tos_witness :
    setOption linuxBuild 'T' (some ('0' :: 'x' :: "48".toList)) defaultState
        = .ok (0, { defaultState with conf := { defaultState.conf with tos := 72 } })
      ∧ setOption linuxBuild 'T' (some ("16".toList ++ [])) defaultState
        = .ok (0, { defaultState with conf := { defaultState.conf with tos := 16 } })
      ∧ setOption linuxBuild 'T' (some ([] ++ "high".toList)) defaultState
        = .ok (0, { defaultState with conf := { defaultState.conf with tos := 0 } }) :=
  ⟨(setOption_tos linuxBuild defaultState rfl).1 "48".toList (by decide) (by decide) (by decide),
    (setOption_tos linuxBuild defaultState rfl).2 "16".toList [] (by decide) (by decide)
      (by decide) (by decide) (by decide),
    (setOption_tos linuxBuild defaultState rfl).2 [] "high".toList (by decide) (by decide)
      (by decide) (by decide) (by decide)⟩

/-! ## Validation and startup -/

theorem headD_of_cstr_nil (buf : Buf) (h : cstr buf = []) : buf.headD NUL = NUL := by
  cases buf with
  | nil => rfl
  | cons c cs =>
    by_cases hc : c = NUL
    · simpa using hc
    · have : (c != NUL) = true := by simpa using hc
      simp [cstr, List.takeWhile, this] at h

/-- C15: for every value of `rc` and every state the loaders left in which the
address field is empty, whatever the collaborators answer, `main` ends with
status 0, its last call being `help`, and `tuntap_open` is not among the calls
it made. -/
theorem main_startup_empty_address (b : Build) (sys : Sys) (rc : Int) (st : State)
    (haddr : cstr st.ec.ip_addr = []) :
    (main_startup b sys rc st).2 = 0
      ∧ (main_startup b sys rc st).1.getLast? = some Event.help
      ∧ Event.tuntap_open ∉ (main_startup b sys rc st).1 := by
  have h0 := headD_of_cstr_nil _ haddr
  have hec : (main_dhcp st).ec = st.ec := by
    unfold main_dhcp; split <;> rfl
  have hcond : ¬ ((b.LINUX = true → (main_dhcp st).ec.tuntap_dev_name.headD NUL ≠ NUL)
      ∧ (main_dhcp st).ec.ip_addr.headD NUL ≠ NUL) := by
    rw [hec]; exact fun h => h.2 h0
  unfold main_startup
  by_cases h1 : rc < 0
  · simp [h1]
  · by_cases h2 : sys.edge_verify_conf st.conf ≠ 0
    · simp [h1, h2]
    · simp only [h1, h2, if_false, hcond, not_false_eq_true, if_true]
      simp

/-- C15 (witness): the sample state, in which no `-a` was given. -/
theorem main_startup_empty_address_witness :
    (main_startup linuxBuild sysOk 0 defaultState).2 = 0
      ∧ (main_startup linuxBuild sysOk 0 defaultState).1.getLast? = some Event.help
      ∧ Event.tuntap_open ∉ (main_startup linuxBuild sysOk 0 defaultState).1 :=
  main_startup_empty_address linuxBuild sysOk 0 defaultState (by decide)

/-! ## Startup failures -/

theorem main_dhcp_ec (st : State) : (main_dhcp st).ec = st.ec := by
  unfold main_dhcp; split <;> rfl

/-- The part of `main_startup` from `tuntap_open` on, when validation passed. -/
theorem main_startup_validated (b : Build) (sys : Sys) (rc : Int) (st : State)
    (hrc : ¬ rc < 0) (hver : sys.edge_verify_conf st.conf = 0)
    (hdev : b.LINUX = true → st.ec.tuntap_dev_name.headD NUL ≠ NUL)
    (haddr : st.ec.ip_addr.headD NUL ≠ NUL) :
    main_startup b sys rc st
      = if sys.tuntap_open st.ec < 0
        then ([.edge_verify_conf] ++ (if b.WIN32 then [] else [Event.setuid_root])
                ++ [.tuntap_open], -1)
        else if ¬ sys.edge_init (main_dhcp st).conf
        then ([.edge_verify_conf] ++ (if b.WIN32 then [] else [Event.setuid_root])
                ++ [.tuntap_open] ++ [.edge_init], 1)
        else main_daemon b sys (main_dhcp st)
              ([.edge_verify_conf] ++ (if b.WIN32 then [] else [Event.setuid_root])
                ++ [.tuntap_open] ++ [.edge_init]) := by
  have hcond : ¬ ¬ ((b.LINUX = true → st.ec.tuntap_dev_name.headD NUL ≠ NUL)
      ∧ st.ec.ip_addr.headD NUL ≠ NUL) := not_not.mpr ⟨hdev, haddr⟩
  have hver2 : ¬ sys.edge_verify_conf st.conf ≠ 0 := by simp [hver]
  unfold main_startup
  simp only [hrc, hver2, if_false, main_dhcp_ec]
  rw [if_neg hcond]

/-- C16 (counterexample): with validation passed and the interface opened,
when `edge_init` returns `NULL` the process calls `exit(1)` with `tuntap_close`
never called; when `setgid` fails it calls `exit(1)` with neither `edge_term`
nor `tuntap_close` called. -/
theorem main_startup_failure_leaves_open :
    main_startup linuxBuild sysInitFails 0 readyState
        = ([.edge_verify_conf, .setuid_root, .tuntap_open, .edge_init], 1)
      ∧ main_startup linuxBuild sysDropFails 0 readyState
        = ([.edge_verify_conf, .setuid_root, .tuntap_open, .edge_init, .fork, .setgid], 1)
      ∧ Event.tuntap_close ∉ (main_startup linuxBuild sysInitFails 0 readyState).1
      ∧ Event.tuntap_close ∉ (main_startup linuxBuild sysDropFails 0 readyState).1
      ∧ Event.edge_term ∉ (main_startup linuxBuild sysDropFails 0 readyState).1 := by
  decide

theorem main_run_has_loop (b : Build) (sys : Sys) (st : State) (t : List Event) :
    Event.run_edge_loop ∈ (main_run b sys st t).1 := by
  simp [main_run]

theorem main_drop_no_close (b : Build) (sys : Sys) (st : State) (t : List Event)
    (ht : Event.tuntap_close ∉ t ∧ Event.edge_term ∉ t)
    (h : Event.run_edge_loop ∉ (main_drop b sys st t).1) :
    Event.tuntap_close ∉ (main_drop b sys st t).1
      ∧ Event.edge_term ∉ (main_drop b sys st t).1 := by
  unfold main_drop at h ⊢
  split_ifs at h ⊢
  all_goals first
    | exact absurd (main_run_has_loop b sys st _) h
    | simp [ht.1, ht.2]

theorem main_daemon_no_close (b : Build) (sys : Sys) (st : State) (t : List Event)
    (ht : Event.tuntap_close ∉ t ∧ Event.edge_term ∉ t)
    (h : Event.run_edge_loop ∉ (main_daemon b sys st t).1) :
    Event.tuntap_close ∉ (main_daemon b sys st t).1
      ∧ Event.edge_term ∉ (main_daemon b sys st t).1 := by
  unfold main_daemon at h ⊢
  split_ifs at h ⊢
  · simp [ht.1, ht.2]
  · exact main_drop_no_close b sys st _ (by simp [ht.1, ht.2]) h
  · exact main_drop_no_close b sys st _ ht h

/-- The program closes the interface and ends the engine only after the engine
loop has run. -/
theorem main_startup_no_close_before_loop (b : Build) (sys : Sys) (rc : Int) (st : State)
    (h : Event.run_edge_loop ∉ (main_startup b sys rc st).1) :
    Event.tuntap_close ∉ (main_startup b sys rc st).1
      ∧ Event.edge_term ∉ (main_startup b sys rc st).1 := by
  unfold main_startup at h ⊢
  simp only [] at h ⊢
  split_ifs at h ⊢
  all_goals first
    | (exact main_daemon_no_close b sys _ _ (by simp) h)
    | simp

/-- C16 (amended): once validation has passed, on each startup failure path
the process ends with a status other than 0 and the program itself closes
nothing: when `tuntap_open` fails `main` returns -1 with nothing opened; when
`edge_init` returns `NULL` the process calls `exit(1)` with the interface
opened and `tuntap_close` not called; when the privilege drop fails the
process calls `exit(1)` with the interface opened, the engine initialized, and
neither `edge_term` nor `tuntap_close` called; in general `tuntap_close` and
`edge_term` are called only after the engine loop has run. -/
theorem main_startup_failure_paths (b : Build) (sys : Sys) (rc : Int) (st : State)
    (hrc : ¬ rc < 0) (hver : sys.edge_verify_conf st.conf = 0)
    (hdev : b.LINUX = true → st.ec.tuntap_dev_name.headD NUL ≠ NUL)
    (haddr : st.ec.ip_addr.headD NUL ≠ NUL) :
    (sys.tuntap_open st.ec < 0 →
        (main_startup b sys rc st).2 = -1
          ∧ (main_startup b sys rc st).1.getLast? = some Event.tuntap_open
          ∧ Event.edge_init ∉ (main_startup b sys rc st).1)
      ∧ (¬ sys.tuntap_open st.ec < 0 → sys.edge_init (main_dhcp st).conf = false →
        (main_startup b sys rc st).2 = 1
          ∧ Event.tuntap_open ∈ (main_startup b sys rc st).1
          ∧ (main_startup b sys rc st).1.getLast? = some Event.edge_init
          ∧ Event.tuntap_close ∉ (main_startup b sys rc st).1)
      ∧ (¬ sys.tuntap_open st.ec < 0 → sys.edge_init (main_dhcp st).conf = true →
        b.WIN32 = false → (st.ec.daemon = 0 ∨ sys.fork ≤ 0) →
        (st.ec.userid ≠ 0 ∨ st.ec.groupid ≠ 0) →
        (sys.setgid st.ec.groupid ≠ 0 ∨ sys.setuid st.ec.userid ≠ 0) →
        (main_startup b sys rc st).2 = 1
          ∧ Event.tuntap_open ∈ (main_startup b sys rc st).1
          ∧ Event.edge_init ∈ (main_startup b sys rc st).1
          ∧ Event.edge_term ∉ (main_startup b sys rc st).1
          ∧ Event.tuntap_close ∉ (main_startup b sys rc st).1)
      ∧ (Event.run_edge_loop ∉ (main_startup b sys rc st).1 →
        Event.tuntap_close ∉ (main_startup b sys rc st).1
          ∧ Event.edge_term ∉ (main_startup b sys rc st).1) := by
  refine ⟨?_, ?_, ?_, main_startup_no_close_before_loop b sys rc st⟩
  all_goals rw [main_startup_validated b sys rc st hrc hver hdev haddr]
  · intro hopen
    simp only [hopen, if_true]
    split_ifs <;> simp
  · intro hopen hinit
    simp only [hopen, if_false, hinit, Bool.false_eq_true, not_false_eq_true, if_true]
    split_ifs <;> simp
  · intro hopen hinit hwin hchild hids hfail
    have hfork : ¬ sys.fork > 0 ∨ st.ec.daemon = 0 := by
      rcases hchild with h | h
      · exact Or.inr h
      · exact Or.inl (by omega)
    simp only [hopen, if_false, hinit, not_true_eq_false, main_daemon, main_drop, hwin,
      main_dhcp_ec, hids, if_true, Bool.not_false, Bool.true_and, Bool.false_eq_true]
    split_ifs <;> simp_all

/-- C16 (witness): the sample state with an address, with `tuntap_open`
failing, with `edge_init` failing, and with `setgid` failing. -/
theorem main_startup_failure_paths_witness :
    (main_startup linuxBuild sysOpenFails 0 readyState).2 = -1
      ∧ (main_startup linuxBuild sysInitFails 0 readyState).2 = 1
      ∧ Event.tuntap_close ∉ (main_startup linuxBuild sysInitFails 0 readyState).1
      ∧ (main_startup linuxBuild sysDropFails 0 readyState).2 = 1
      ∧ Event.edge_term ∉ (main_startup linuxBuild sysDropFails 0 readyState).1 :=
  ⟨((main_startup_failure_paths linuxBuild sysOpenFails 0 readyState (by decide) rfl
        (by decide) (by decide)).1 (by decide)).1,
    ((main_startup_failure_paths linuxBuild sysInitFails 0 readyState (by decide) rfl
        (by decide) (by decide)).2.1 (by decide) rfl).1,
    ((main_startup_failure_paths linuxBuild sysInitFails 0 readyState (by decide) rfl
        (by decide) (by decide)).2.1 (by decide) rfl).2.2.2,
    ((main_startup_failure_paths linuxBuild sysDropFails 0 readyState (by decide) rfl
        (by decide) (by decide)).2.2.1 (by decide) rfl rfl (Or.inr (by decide))
        (Or.inl (by decide)) (Or.inl (by decide))).1,
    ((main_startup_failure_paths linuxBuild sysDropFails 0 readyState (by decide) rfl
        (by decide) (by decide)).2.2.1 (by decide) rfl rfl (Or.inr (by decide))
        (Or.inl (by decide)) (Or.inl (by decide))).2.2.2.1⟩

/-! ## A configuration file that cannot be opened -/

theorem loadFromCLI_rc (b : Build) (rets : List GetoptRet) (st : State) (r : Int × State)
    (h : loadFromCLI b rets st = .ok r) : r.1 = 0 := by
  induction rets generalizing st with
  | nil =>
    simp only [loadFromCLI, Outcome.ok.injEq] at h
    rw [← h]
  | cons x xs ih =>
    simp only [loadFromCLI] at h
    split at h
    · simp only [Outcome.ok.injEq] at h
      rw [← h]
    · split at h
      · simp only [Outcome.ok.injEq] at h
        rw [← h]
      · obtain ⟨r1, -, h2⟩ := bind_eq_ok _ _ _ h
        exact ih r1.2 h2

theorem main_drop_starts (b : Build) (sys : Sys) (st : State) (t : List Event) :
    ∃ rest, (main_drop b sys st t).1 = t ++ rest := by
  unfold main_drop main_run
  split_ifs
  all_goals first
    | exact ⟨_, rfl⟩
    | exact ⟨_, by simp only [List.append_assoc]; rfl⟩

theorem main_daemon_starts (b : Build) (sys : Sys) (st : State) (t : List Event) :
    ∃ rest, (main_daemon b sys st t).1 = t ++ rest := by
  unfold main_daemon
  split_ifs
  · exact ⟨_, rfl⟩
  · obtain ⟨rest, h⟩ := main_drop_starts b sys st (t ++ [.fork])
    exact ⟨_, by rw [h, List.append_assoc]⟩
  · exact main_drop_starts b sys st t

theorem main_daemon_head (b : Build) (sys : Sys) (st : State) (e : Event) (t : List Event) :
    (main_daemon b sys st (e :: t)).1.head? = some e := by
  obtain ⟨rest, h⟩ := main_daemon_starts b sys st (e :: t)
  rw [h]
  rfl

/-- C18 (counterexample): with the arguments `edge missing.conf -h`, where the
file cannot be opened and an argument follows the path, the CLI loader runs,
`-h` calls `help` and the process ends with status 0: the bootstrap stops with
help and validation is never reached. -/
theorem main_missing_file_help_flag :
    main linuxBuild (envNoFile [⟨104, none⟩]) sysOk
        ["edge".toList, "missing.conf".toList, "-h".toList] readyState = .exit 0
      ∧ setOption linuxBuild 'h' none readyState = help
      ∧ ∀ t, main linuxBuild (envNoFile [⟨104, none⟩]) sysOk
        ["edge".toList, "missing.conf".toList, "-h".toList] readyState ≠ .ok t := by
  refine ⟨by decide, by decide, ?_⟩
  intro t h
  have : main linuxBuild (envNoFile [⟨104, none⟩]) sysOk
      ["edge".toList, "missing.conf".toList, "-h".toList] readyState = .exit 0 := by decide
  rw [this] at h
  cases h

/-- C18 (amended): when the first argument is a path that does not start with
a dash and cannot be opened: with no argument after it `main` calls `help`
at the test of `rc` and ends with status 0, no validation made; with
arguments after it the failure of the file loader is dropped and the CLI
loader runs on the unchanged state, and whenever the CLI loader returns, `rc`
is 0 and the first call `main` makes is the validation. -/
theorem main_missing_file (b : Build) (env : Env) (sys : Sys) (argv : List CStr) (st : State)
    (hargc : 2 ≤ argv.length) (hpath : (argv.getD 1 []).headD NUL ≠ '-')
    (hopen : env.fopen (argv.getD 1 []) = none) :
    (argv.length = 2 → main b env sys argv st = .ok ([.help], 0))
      ∧ (2 < argv.length →
          main b env sys argv st
              = (loadFromCLI b (env.getopt_long argv) st).bind
                  (fun r => .ok (main_startup b sys r.1 r.2))
            ∧ ∀ r, loadFromCLI b (env.getopt_long argv) st = .ok r →
                r.1 = 0 ∧ main b env sys argv st = .ok (main_startup b sys 0 r.2)
                  ∧ (main_startup b sys 0 r.2).1.head? = some Event.edge_verify_conf) := by
  have hload : loadFromFile b env (argv.getD 1 []) st = .ok (-1, st) := by
    simp only [loadFromFile, hopen]
  have hge : argv.length ≥ 2 := hargc
  constructor
  · intro h2
    have hn : ¬ argv.length > 2 := by omega
    simp only [main, main_load, hge, hpath, ne_eq, not_false_eq_true, and_self, if_true, hload,
      Outcome.bind_ok, hn, if_false, main_startup]
    simp
  · intro h2
    have hgt : argv.length > 2 := h2
    have hmain : main b env sys argv st
        = (loadFromCLI b (env.getopt_long argv) st).bind
            (fun r => .ok (main_startup b sys r.1 r.2)) := by
      simp only [main, main_load, hge, hpath, ne_eq, not_false_eq_true, and_self, if_true, hload,
        Outcome.bind_ok, hgt]
    refine ⟨hmain, ?_⟩
    intro r hr
    have h0 := loadFromCLI_rc b _ st r hr
    refine ⟨h0, by rw [hmain, hr, Outcome.bind_ok, h0], ?_⟩
    unfold main_startup
    simp only [lt_self_iff_false, if_false]
    split_ifs
    all_goals first
      | rfl
      | (simp only [List.cons_append, List.nil_append, List.singleton_append]
         exact main_daemon_head _ _ _ _ _)

/-- C18 (witness): `edge missing.conf` ends in `help`; `edge missing.conf -r`
goes on to validation. -/
theorem main_missing_file_witness :
    main linuxBuild (envNoFile []) sysOk ["edge".toList, "missing.conf".toList] readyState
        = .ok ([.help], 0)
      ∧ main linuxBuild (envNoFile [⟨114, none⟩]) sysOk
          ["edge".toList, "missing.conf".toList, "-r".toList] readyState
        = (loadFromCLI linuxBuild
              ((envNoFile [⟨114, none⟩]).getopt_long
                ["edge".toList, "missing.conf".toList, "-r".toList]) readyState).bind
            (fun r => .ok (main_startup linuxBuild sysOk r.1 r.2)) :=
  ⟨(main_missing_file linuxBuild (envNoFile []) sysOk
      ["edge".toList, "missing.conf".toList] readyState (by decide) (by decide) rfl).1 rfl,
    ((main_missing_file linuxBuild (envNoFile [⟨114, none⟩]) sysOk
      ["edge".toList, "missing.conf".toList, "-r".toList] readyState (by decide) (by decide)
      rfl).2 (by decide)).1⟩

/-! ## File lines without a value -/

theorem setOption_absent_value (b : Build) (st : State) (x : Char)
    (hx : x ∈ ['c', 'm', 'M', 'k', 'l', 'i', 'p', 't', 's']) :
    setOption b x none st = .fault := by
  simp only [List.mem_cons, List.mem_singleton, List.not_mem_nil, or_false] at hx
  rcases hx with rfl | rfl | rfl | rfl | rfl | rfl | rfl | rfl | rfl <;>
    simp [setOption, copyField, atoi]

theorem confLine_code_only (b : Build) (st : State) (x : Char)
    (hx : x ∈ ['c', 'm', 'M', 'k', 'l', 'i', 'p', 't', 's']) :
    confLine b ['-', x] st = .fault := by
  have hline : trim (cstr ['-', x]) = '-' :: x :: [] := by
    simp only [List.mem_cons, List.mem_singleton, List.not_mem_nil, or_false] at hx
    rcases hx with rfl | rfl | rfl | rfl | rfl | rfl | rfl | rfl | rfl <;> decide
  have hdash : x ≠ '-' := by
    simp only [List.mem_cons, List.mem_singleton, List.not_mem_nil, or_false] at hx
    rcases hx with rfl | rfl | rfl | rfl | rfl | rfl | rfl | rfl | rfl <;> decide
  rw [confLine_short b _ st x [] hline hdash]
  simp [setOption_absent_value b st x hx]

theorem confLine_alias_only (b : Build) (st : State) (tail : List Char)
    (ht : tail = [] ∨ tail = ['=']) :
    confLine b ("--community".toList ++ tail) st = .fault := by
  rcases ht with rfl | rfl
  · have hline : trim (cstr ("--community".toList ++ []))
        = '-' :: '-' :: "community".toList := by decide
    have hfind : long_options.find?
        (fun o => longMatch "community".toList "community".toList.length o.1)
        = some ("community".toList, true, 'c') := by decide
    rw [confLine_long b _ st _ _ hline hfind]
    simp [setOption_absent_value b st 'c' (by decide)]
  · have hline : trim (cstr ("--community".toList ++ ['=']))
        = '-' :: '-' :: "community=".toList := by decide
    have hfind : long_options.find?
        (fun o => longMatch "community=".toList "community=".toList.length o.1)
        = some ("community".toList, true, 'c') := by decide
    rw [confLine_long b _ st _ _ hline hfind]
    have hlen : ¬ ("community=".toList.length > "community".toList.length + 1) := by decide
    simp only [hlen, if_false]
    simp [setOption_absent_value b st 'c' (by decide)]

/-- C21 (code at the failing inputs): in every build and state the loader, at
a line that is a dash and one of the codes `c m M k l i p t s` with nothing
after it, calls `setOption` with an absent value, which `setOption` reads: so
for the lines `-c` and `-l`, the latter falling from `case 'l'` into the
`atoi` of `case 'i'`; the same happens for the lines `--community` and
`--community=`; and a file that holds the line `-c` ends the process in
`loadFromFile`. -/
theorem confLine_absent_value :
    (∀ (b : Build) (st : State) (x : Char), x ∈ ['c', 'm', 'M', 'k', 'l', 'i', 'p', 't', 's'] →
        setOption b x none st = .fault ∧ confLine b ['-', x] st = .fault)
      ∧ (∀ (b : Build) (st : State), confLine b "-c".toList st = .fault)
      ∧ (∀ (b : Build) (st : State), confLine b "-l".toList st = .fault)
      ∧ (∀ (b : Build) (st : State), confLine b "--community".toList st = .fault)
      ∧ (∀ (b : Build) (st : State), confLine b "--community=".toList st = .fault)
      ∧ loadFromFile linuxBuild (envOf "-r\n-c\n-E\n".toList []) "edge.conf".toList defaultState
          = .fault := by
  refine ⟨fun b st x hx => ⟨setOption_absent_value b st x hx, confLine_code_only b st x hx⟩,
    fun b st => confLine_code_only b st 'c' (by decide),
    fun b st => confLine_code_only b st 'l' (by decide),
    fun b st => ?_, fun b st => ?_, by decide⟩
  · have := confLine_alias_only b st [] (Or.inl rfl)
    simpa using this
  · exact confLine_alias_only b st ['='] (Or.inr rfl)

/-! ## Option lines in a file -/

theorem Outcome.bind_assoc {α β γ : Type} (o : Outcome α) (f : α → Outcome β)
    (g : β → Outcome γ) : (o.bind f).bind g = o.bind fun a => (f a).bind g := by
  cases o <;> rfl

theorem loadLines_append (b : Build) (xs ys : List (List Char)) (st : State) :
    loadLines b (xs ++ ys) st = (loadLines b xs st).bind fun s1 => loadLines b ys s1 := by
  induction xs generalizing st with
  | nil => simp [loadLines]
  | cons p ps ih =>
    simp only [List.cons_append, loadLines, Outcome.bind_assoc]
    congr 1
    funext s
    exact ih s

/-- A newline ends a piece wherever it stands: the pieces of a text up to and
with a newline, then the pieces of what follows. -/
theorem fgetsAll_newline (l rest cur : List Char) :
    fgetsAll 4096 (l ++ '\n' :: rest) cur
      = fgetsAll 4096 (l ++ ['\n']) cur ++ fgetsAll 4096 rest [] := by
  induction l generalizing cur with
  | nil =>
    rw [List.nil_append, List.nil_append, fgetsAll_stop _ _ _ (Or.inl rfl),
      fgetsAll_stop _ _ _ (Or.inl rfl)]
    simp [fgetsAll]
  | cons c cs ih =>
    by_cases h : c = '\n' ∨ cur.length + 1 = 4095
    · rw [List.cons_append, List.cons_append, fgetsAll_stop _ _ _ h, fgetsAll_stop _ _ _ h, ih]
      simp
    · have h1 : c ≠ '\n' := fun e => h (Or.inl e)
      have h2 : cur.length + 1 ≠ 4095 := fun e => h (Or.inr e)
      rw [List.cons_append, List.cons_append, fgetsAll_go _ _ _ h1 h2, fgetsAll_go _ _ _ h1 h2, ih]

/-- The pieces of a file around a line that fits the buffer: the line starts
the file or follows a newline, and ends the file or is followed by a newline;
it is one piece, with its newline if it has one. -/
theorem fgetsAll_at_line (before line rest : List Char)
    (hbefore : before = [] ∨ before.getLast? = some '\n')
    (hrest : rest = [] ∨ rest.head? = some '\n')
    (hnl : '\n' ∉ line) (hne : line ≠ []) (hlen : line.length ≤ 4094) :
    fgetsAll 4096 (before ++ (line ++ rest)) []
      = fgetsAll 4096 before [] ++ (line ++ rest.take 1) :: fgetsAll 4096 (rest.drop 1) [] := by
  have hline : fgetsAll 4096 (line ++ rest) []
      = (line ++ rest.take 1) :: fgetsAll 4096 (rest.drop 1) [] := by
    rcases hrest with rfl | hrest
    · have := fgets_last line [] hnl (by simpa using hlen)
      have he : line.isEmpty = false := by
        cases line with
        | nil => exact absurd rfl hne
        | cons c cs => rfl
      simpa [he, fgetsAll] using this
    · cases rest with
      | nil => simp at hrest
      | cons r after =>
        simp only [List.head?_cons, Option.some.injEq] at hrest
        subst hrest
        have := fgets_line line after [] hnl (by simp only [List.length_nil]; omega)
        simpa using this
  rcases hbefore with rfl | hbefore
  · simp [hline, fgetsAll]
  · obtain ⟨ys, rfl⟩ := List.getLast?_eq_some_iff.mp hbefore
    have e : ys ++ ['\n'] ++ (line ++ rest) = ys ++ '\n' :: (line ++ rest) := by simp
    rw [e, fgetsAll_newline, hline]

/-- The loader on a file around a line that fits the buffer: the loop runs over
the text before the line, then its body runs on the line, then the loop runs
over the text after it. -/
theorem loadFromFile_at_line (b : Build) (env : Env) (path : CStr) (st : State)
    (before line rest : List Char)
    (hopen : env.fopen path = some (before ++ (line ++ rest)))
    (hbefore : before = [] ∨ before.getLast? = some '\n')
    (hrest : rest = [] ∨ rest.head? = some '\n')
    (hnl : '\n' ∉ line) (hne : line ≠ []) (hlen : line.length ≤ 4094) :
    loadFromFile b env path st
      = (loadLines b (fgetsAll 4096 before []) st).bind fun s1 =>
          (confLine b (line ++ rest.take 1) s1).bind fun s2 =>
            (loadLines b (fgetsAll 4096 (rest.drop 1) []) s2).bind fun s3 => .ok (0, s3) := by
  simp only [loadFromFile, hopen, fgetsAll_at_line before line rest hbefore hrest hnl hne hlen,
    loadLines_append, loadLines, Outcome.bind_assoc]

/-- What may follow a line in the file, a newline or nothing, is white space. -/
theorem take_one_trimCh (rest : List Char) (hrest : rest = [] ∨ rest.head? = some '\n') :
    ∀ c ∈ rest.take 1, trimCh c = true := by
  intro c hc
  rcases hrest with rfl | hrest
  · simp at hc
  · cases rest with
    | nil => simp at hrest
    | cons r after =>
      simp only [List.head?_cons, Option.some.injEq] at hrest
      subst hrest
      simp only [List.take_succ_cons, List.take_zero, List.mem_singleton] at hc
      subst hc
      decide

theorem long_name_no_newline (name : CStr) (a : Bool) (code : Char)
    (hopt : (name, a, code) ∈ long_options) : '\n' ∉ name := by
  rw [long_options_chars] at hopt
  simp only [List.mem_cons, List.mem_singleton, List.not_mem_nil, or_false, Prod.mk.injEq] at hopt
  rcases hopt with ⟨rfl, -, -⟩ | ⟨rfl, -, -⟩ | ⟨rfl, -, -⟩ | ⟨rfl, -, -⟩ | ⟨rfl, -, -⟩ |
    ⟨rfl, -, -⟩ | ⟨rfl, -, -⟩ <;> decide

/-- What `trim` returns for a line that starts with a dash and whose last
character to keep is followed by characters to remove only. -/
theorem trim_dash_last (mid tail : List Char) (l : Char) (hl : mid.getLast? = some l)
    (hkeep : trimCh l = false) (ht : ∀ c ∈ tail, trimCh c = true) :
    trim ('-' :: (mid ++ tail)) = '-' :: mid := by
  have h0 : trimCh '-' = false := by decide
  have hd : ('-' :: (mid ++ tail)).dropWhile trimCh = '-' :: (mid ++ tail) := by
    simp [List.dropWhile_cons, h0]
  unfold trim
  rw [hd]
  simp only [rdrop_trailing mid tail l hl hkeep ht]

/-- The loop over `long_options` finds no alias for a key that goes on after
an alias with a character that is not NUL, space or `=`. -/
theorem find_long_none (name : CStr) (code : Char) (x : Char) (rest : List Char)
    (hopt : (name, true, code) ∈ long_options)
    (h1 : x ≠ ' ') (h2 : x ≠ '=') (h3 : x ≠ NUL) :
    long_options.find?
        (fun o => longMatch (name ++ x :: rest) (name ++ x :: rest).length o.1) = none := by
  have hb : (x == Char.ofNat 0 || x == ' ' || x == '=') = false := by
    have h3b : ¬ x = Char.ofNat 0 := h3
    simp [h1, h2, h3b]
  rw [long_options_chars] at hopt ⊢
  simp only [List.mem_cons, List.mem_singleton, List.not_mem_nil, or_false, Prod.mk.injEq] at hopt
  rcases hopt with ⟨rfl, -, rfl⟩ | ⟨rfl, -, rfl⟩ | ⟨rfl, -, rfl⟩ | ⟨rfl, -, rfl⟩ | ⟨rfl, -, rfl⟩ |
    ⟨-, h, -⟩ | ⟨-, h, -⟩
  all_goals first
    | (simp [List.find?, longMatch, List.getD, NUL]
       simp only [hb])
    | simp at h

/-- The long-option branch of `confLine` when no table entry is found: the
line is passed over. -/
theorem confLine_long_none (b : Build) (buffer : List Char) (st : State) (key : List Char)
    (hline : trim (cstr buffer) = '-' :: '-' :: key)
    (hfind : long_options.find? (fun o => longMatch key key.length o.1) = none) :
    confLine b buffer st = .ok st := by
  have h1 : ¬ (key.length + 1 + 1 < 2) := by omega
  simp [confLine, hline, h1, hfind]

/-- The loop body at a piece that holds two dashes, an alias that takes a
value and then a character `x` that is not NUL, space or `=`, when the last
character of the text from `x` on that is not followed by white space and
quotes only is a character `trim` keeps: the line is passed over. -/
theorem confLine_long_other (b : Build) (st : State) (name : CStr) (code x l : Char)
    (body tail : List Char) (hopt : (name, true, code) ∈ long_options)
    (h1 : x ≠ ' ') (h2 : x ≠ '=') (h3 : x ≠ NUL) (hnul : NUL ∉ body)
    (hl : (x :: body).getLast? = some l) (hkeep : trimCh l = false)
    (ht : ∀ c ∈ tail, trimCh c = true) :
    confLine b ('-' :: '-' :: (name ++ x :: (body ++ tail))) st = .ok st := by
  have hnul2 : NUL ∉ '-' :: '-' :: (name ++ x :: (body ++ tail)) := by
    intro hin
    simp only [List.mem_cons, List.mem_append] at hin
    rcases hin with h | h | h | h | h | h
    · exact absurd h (by decide)
    · exact absurd h (by decide)
    · exact long_name_no_nul name true code hopt h
    · exact h3 h.symm
    · exact hnul h
    · exact not_nul_of_trimCh NUL (ht NUL h) rfl
  have hlast : ('-' :: (name ++ x :: body)).getLast? = some l := by
    have e : '-' :: (name ++ x :: body) = ('-' :: name) ++ (x :: body) := by simp
    rw [e, List.getLast?_append_of_ne_nil _ (by simp)]
    exact hl
  have hline : trim (cstr ('-' :: '-' :: (name ++ x :: (body ++ tail))))
      = '-' :: '-' :: (name ++ x :: body) := by
    rw [cstr_of_no_nul _ hnul2]
    have := trim_dash_last ('-' :: (name ++ x :: body)) tail l hlast hkeep ht
    simpa [List.append_assoc] using this
  exact confLine_long_none b _ st _ hline (find_long_none name code x body hopt h1 h2 h3)

/-- C6 (counterexample): a file that holds the line `-cfoo`: the loader applies
`c` with the value `oo`, not `foo`, and the community identifier stored is `oo`. -/
theorem loadFromFile_short_no_separator :
    loadFromFile linuxBuild (envOf "-cfoo\n".toList []) "edge.conf".toList defaultState
        = (setOption linuxBuild 'c' (some "oo".toList) defaultState).bind (fun r => .ok (0, r.2))
      ∧ loadFromFile linuxBuild (envOf "-cfoo\n".toList []) "edge.conf".toList defaultState
        = .ok (0, { defaultState with
                      conf := { defaultState.conf with community_name := bufOf 16 "oo" } })
      ∧ loadFromFile linuxBuild (envOf "-cfoo\n".toList []) "edge.conf".toList defaultState
        ≠ (setOption linuxBuild 'c' (some "foo".toList) defaultState).bind
            (fun r => .ok (0, r.2)) := by
  decide

/-- C6 (amended): for every code `x` other than the dash, every character
`sep` after it and every clean value `v` (not empty, no white space or quote
at either end), none of them NUL or a newline, and every file that can be
opened in which the line `-x`, `sep`, `v`, with whatever white space or quotes
after it, starts the file or follows a newline, ends the file or is followed by
a newline, and is at most 4094 characters long: `loadFromFile` runs its loop
over the text before the line, applies `x` with the value exactly `v` to the
state reached, runs its loop over the text after the line and returns 0. The
character `sep` is dropped whatever it is: a space, `=`, or the first character
of a value written right after the code. -/
theorem loadFromFile_short_value (b : Build) (env : Env) (path : CStr) (st : State)
    (before rest : List Char) (x sep : Char) (v tail : List Char)
    (hopen : env.fopen path = some (before ++ ('-' :: x :: sep :: (v ++ tail) ++ rest)))
    (hbefore : before = [] ∨ before.getLast? = some '\n')
    (hrest : rest = [] ∨ rest.head? = some '\n')
    (hx : x ≠ '-') (hnul : NUL ∉ x :: sep :: v) (hv : clean v = true)
    (ht : ∀ c ∈ tail, trimCh c = true)
    (hnl : '\n' ∉ x :: sep :: (v ++ tail))
    (hlen : ('-' :: x :: sep :: (v ++ tail)).length ≤ 4094) :
    loadFromFile b env path st
      = (loadLines b (fgetsAll 4096 before []) st).bind fun s1 =>
          (setOption b x (some v) s1).bind fun r =>
            (loadLines b (fgetsAll 4096 (rest.drop 1) []) r.2).bind fun s2 => .ok (0, s2) := by
  have hnl2 : '\n' ∉ '-' :: x :: sep :: (v ++ tail) := by
    intro hin
    rcases List.mem_cons.mp hin with h | h
    · exact absurd h (by decide)
    · exact hnl h
  have hpiece : ∀ s1 : State, confLine b ('-' :: x :: sep :: (v ++ tail) ++ rest.take 1) s1
      = (setOption b x (some v) s1).bind (fun r => .ok r.2) := by
    intro s1
    have := confLine_short_clean b s1 x sep v (tail ++ rest.take 1) hx hnul hv
      (fun c hc => (List.mem_append.mp hc).elim (ht c) (take_one_trimCh rest hrest c))
    simpa [List.append_assoc] using this
  rw [loadFromFile_at_line b env path st before _ rest hopen hbefore hrest hnl2 (by simp) hlen]
  simp only [hpiece, Outcome.bind_assoc, Outcome.bind_ok]

/-- C6 (witness): a file of three lines whose second line is `-c foo`, and the
same file with the second line `-cfoo`, where the value applied is `oo`. -/
theorem loadFromFile_short_value_witness :
    loadFromFile linuxBuild (envOf ("-r\n".toList ++ ("-c foo".toList ++ "\n-E\n".toList)) [])
          "edge.conf".toList defaultState
        = ((loadLines linuxBuild (fgetsAll 4096 "-r\n".toList []) defaultState).bind fun s1 =>
            (setOption linuxBuild 'c' (some "foo".toList) s1).bind fun r =>
              (loadLines linuxBuild (fgetsAll 4096 ("\n-E\n".toList.drop 1) []) r.2).bind
                fun s2 => .ok (0, s2))
      ∧ loadFromFile linuxBuild (envOf ("-r\n".toList ++ ("-cfoo".toList ++ "\n-E\n".toList)) [])
          "edge.conf".toList defaultState
        = ((loadLines linuxBuild (fgetsAll 4096 "-r\n".toList []) defaultState).bind fun s1 =>
            (setOption linuxBuild 'c' (some "oo".toList) s1).bind fun r =>
              (loadLines linuxBuild (fgetsAll 4096 ("\n-E\n".toList.drop 1) []) r.2).bind
                fun s2 => .ok (0, s2)) :=
  ⟨loadFromFile_short_value linuxBuild
      (envOf ("-r\n".toList ++ ("-c foo".toList ++ "\n-E\n".toList)) []) "edge.conf".toList
      defaultState "-r\n".toList "\n-E\n".toList 'c' ' ' "foo".toList [] rfl
      (by decide) (by decide) (by decide) (by decide) (by decide) (by decide) (by decide)
      (by decide),
    loadFromFile_short_value linuxBuild
      (envOf ("-r\n".toList ++ ("-cfoo".toList ++ "\n-E\n".toList)) []) "edge.conf".toList
      defaultState "-r\n".toList "\n-E\n".toList 'c' 'f' "oo".toList [] rfl
      (by decide) (by decide) (by decide) (by decide) (by decide) (by decide) (by decide)
      (by decide)⟩

/-- C7 (counterexample): a file that holds the line `--community=""`, whose
value is not empty: the loader applies `c` with no value at all, which
`setOption` dereferences, while applying `c` with the trimmed value, the empty
string, returns. And a file that holds the line `--community` followed by a
tab: the tab is trimmed away, the alias is matched and `c` is applied without a
value, while a line that matches no alias is passed over. -/
theorem loadFromFile_long_quotes_only :
    loadFromFile linuxBuild (envOf ("--community=".toList ++ [DQUOTE, DQUOTE, '\n']) [])
          "edge.conf".toList defaultState = .fault
      ∧ trim [DQUOTE, DQUOTE] = []
      ∧ (setOption linuxBuild 'c' (some (trim [DQUOTE, DQUOTE])) defaultState).bind
            (fun r => .ok (0, r.2))
        ≠ (.fault : Outcome (Int × State))
      ∧ loadFromFile linuxBuild (envOf "--community\t\n".toList []) "edge.conf".toList
          defaultState = .fault
      ∧ loadFromFile linuxBuild (envOf "--communityX\n".toList []) "edge.conf".toList
          defaultState = .ok (0, defaultState) := by
  decide

/-- C7 (amended): for every alias of the table that takes a value and every
file that can be opened in which a line of at most 4094 characters starts the
file or follows a newline and ends the file or is followed by a newline. If the
line is `--name`, a space or `=`, and a value with a clean core `v` between
white space and quotes (no NUL, no newline), `loadFromFile` runs its loop over
the text before the line, applies the code of the alias with the value exactly
`v`, runs its loop over the text after the line and returns 0. If the line is
`--name` and then a character `x` that is not NUL, space or `=`, and the text
from `x` on has a last character `l` that `trim` keeps before white space and
quotes only, the key does not match the alias and the line is passed over:
the loop runs over the text before and the text after it on the same state. -/
theorem loadFromFile_long_value (b : Build) (env : Env) (path : CStr) (st : State)
    (before rest : List Char) (name : CStr) (code : Char)
    (hopt : (name, true, code) ∈ long_options)
    (hbefore : before = [] ∨ before.getLast? = some '\n')
    (hrest : rest = [] ∨ rest.head? = some '\n') :
    (∀ (sep : Char) (lead v tail : List Char),
        env.fopen path
          = some (before ++ ('-' :: '-' :: (name ++ sep :: (lead ++ (v ++ tail))) ++ rest)) →
        (sep = ' ' ∨ sep = '=') → NUL ∉ v → clean v = true →
        (∀ c ∈ lead, trimCh c = true) → (∀ c ∈ tail, trimCh c = true) →
        '\n' ∉ lead ++ (v ++ tail) →
        ('-' :: '-' :: (name ++ sep :: (lead ++ (v ++ tail)))).length ≤ 4094 →
        loadFromFile b env path st
          = (loadLines b (fgetsAll 4096 before []) st).bind fun s1 =>
              (setOption b code (some v) s1).bind fun r =>
                (loadLines b (fgetsAll 4096 (rest.drop 1) []) r.2).bind fun s2 => .ok (0, s2))
      ∧ (∀ (x l : Char) (body tail : List Char),
          env.fopen path
            = some (before ++ ('-' :: '-' :: (name ++ x :: (body ++ tail)) ++ rest)) →
          x ≠ ' ' → x ≠ '=' → x ≠ NUL → NUL ∉ body →
          (x :: body).getLast? = some l → trimCh l = false →
          (∀ c ∈ tail, trimCh c = true) →
          '\n' ∉ x :: (body ++ tail) →
          ('-' :: '-' :: (name ++ x :: (body ++ tail))).length ≤ 4094 →
          longMatch (name ++ x :: body) (name ++ x :: body).length name = false
            ∧ loadFromFile b env path st
              = (loadLines b (fgetsAll 4096 before []) st).bind fun s1 =>
                  (loadLines b (fgetsAll 4096 (rest.drop 1) []) s1).bind fun s2 =>
                    .ok (0, s2)) := by
  have hname := long_name_no_newline name true code hopt
  constructor
  · intro sep lead v tail hopen hsep hnul hv hlead ht hnl hlen
    have hsepnl : sep ≠ '\n' := by rcases hsep with rfl | rfl <;> decide
    have hnl2 : '\n' ∉ '-' :: '-' :: (name ++ sep :: (lead ++ (v ++ tail))) := by
      intro hin
      simp only [List.mem_cons, List.mem_append] at hin hnl
      rcases hin with h | h | h | h | h
      · exact absurd h (by decide)
      · exact absurd h (by decide)
      · exact hname h
      · exact hsepnl h.symm
      · exact hnl (by simpa [List.mem_append] using h)
    have hpiece : ∀ s1 : State,
        confLine b ('-' :: '-' :: (name ++ sep :: (lead ++ (v ++ tail))) ++ rest.take 1) s1
          = (setOption b code (some v) s1).bind (fun r => .ok r.2) := by
      intro s1
      have := confLine_long_clean b s1 name code sep lead v (tail ++ rest.take 1) hopt hsep hnul hv
        hlead (fun c hc => (List.mem_append.mp hc).elim (ht c) (take_one_trimCh rest hrest c))
      simpa [List.append_assoc] using this
    rw [loadFromFile_at_line b env path st before _ rest hopen hbefore hrest hnl2 (by simp) hlen]
    simp only [hpiece, Outcome.bind_assoc, Outcome.bind_ok]
  · intro x l body tail hopen h1 h2 h3 hnul hl hkeep ht hnl hlen
    refine ⟨longMatch_other name x body h1 h2 h3, ?_⟩
    have hnl2 : '\n' ∉ '-' :: '-' :: (name ++ x :: (body ++ tail)) := by
      intro hin
      simp only [List.mem_cons, List.mem_append] at hin hnl
      rcases hin with h | h | h | h
      · exact absurd h (by decide)
      · exact absurd h (by decide)
      · exact hname h
      · exact hnl h
    have hpiece : ∀ s1 : State,
        confLine b ('-' :: '-' :: (name ++ x :: (body ++ tail)) ++ rest.take 1) s1 = .ok s1 := by
      intro s1
      have := confLine_long_other b s1 name code x l body (tail ++ rest.take 1) hopt h1 h2 h3 hnul
        hl hkeep
        (fun c hc => (List.mem_append.mp hc).elim (ht c) (take_one_trimCh rest hrest c))
      simpa [List.append_assoc] using this
    rw [loadFromFile_at_line b env path st before _ rest hopen hbefore hrest hnl2 (by simp) hlen]
    simp only [hpiece, Outcome.bind_ok]

/-- C7 (witness): a file of three lines whose second line is `--community=foo`,
and the same file with the second line `--communityX`. -/
theorem loadFromFile_long_value_witness :
    loadFromFile linuxBuild
          (envOf ("-r\n".toList ++ ('-' :: '-' :: ("community".toList ++ '=' ::
            ([] ++ ("foo".toList ++ []))) ++ "\n-E\n".toList)) [])
          "edge.conf".toList defaultState
        = ((loadLines linuxBuild (fgetsAll 4096 "-r\n".toList []) defaultState).bind fun s1 =>
            (setOption linuxBuild 'c' (some "foo".toList) s1).bind fun r =>
              (loadLines linuxBuild (fgetsAll 4096 ("\n-E\n".toList.drop 1) []) r.2).bind
                fun s2 => .ok (0, s2))
      ∧ (longMatch ("community".toList ++ 'X' :: []) ("community".toList ++ 'X' :: []).length
            "community".toList = false
        ∧ loadFromFile linuxBuild
            (envOf ("-r\n".toList ++ ('-' :: '-' :: ("community".toList ++ 'X' ::
              ([] ++ [])) ++ "\n-E\n".toList)) [])
            "edge.conf".toList defaultState
          = ((loadLines linuxBuild (fgetsAll 4096 "-r\n".toList []) defaultState).bind fun s1 =>
              (loadLines linuxBuild (fgetsAll 4096 ("\n-E\n".toList.drop 1) []) s1).bind
                fun s2 => .ok (0, s2))) :=
  ⟨(loadFromFile_long_value linuxBuild
      (envOf ("-r\n".toList ++ ('-' :: '-' :: ("community".toList ++ '=' ::
        ([] ++ ("foo".toList ++ []))) ++ "\n-E\n".toList)) [])
      "edge.conf".toList defaultState "-r\n".toList "\n-E\n".toList "community".toList 'c'
      (by decide) (by decide) (by decide)).1 '=' [] "foo".toList [] rfl
      (by decide) (by decide) (by decide) (by decide) (by decide) (by decide) (by decide),
    (loadFromFile_long_value linuxBuild
      (envOf ("-r\n".toList ++ ('-' :: '-' :: ("community".toList ++ 'X' ::
        ([] ++ [])) ++ "\n-E\n".toList)) [])
      "edge.conf".toList defaultState "-r\n".toList "\n-E\n".toList "community".toList 'c'
      (by decide) (by decide) (by decide)).2 'X' 'X' [] [] rfl
      (by decide) (by decide) (by decide) (by decide) (by decide) (by decide) (by decide)
      (by decide) (by decide)⟩

end Edge
